import Mathlib

/-
Verification of the minimart repository core against its specification.

The definitions below are a shallow embedding of the Python sources:
  * `Minimart.HashMap`  embeds the chained hash map of src/inventory.py
    (class HashMap: set / get / delete / all_entries / _resize / _next_prime);
  * `Minimart.Product` and `Minimart.purchase` embed the Product record and
    the purchase operation of src/inventory.py;
  * the delivery, Friday-sale, overnight-restock and cart-building functions
    embed src/simulate_shopping.py, and the alcohol price-surge phases embed
    the corresponding blocks of MiniMeijerApp._run_simulation in src/gui.py.

Python machine integers are embedded as Int (quantities, amounts) or Nat
(counts, sizes, indices); prices are embedded as rationals, with Python's
round(x, 2) idealised as rounding to the nearest cent.  Randomness is
embedded by passing the values drawn by random.randint / random.choices as
explicit oracle arguments.  Fallible code returns Except.
-/

namespace Minimart

/-! ### Entries and buckets (src/inventory.py, class Entry / HashMap buckets) -/

/-- Embeds class `Entry`: a single key-value pair stored inside a bucket. -/
structure Entry (α : Type) where
  key : String
  value : α
  deriving Repr, DecidableEq

/-- First-match lookup inside one bucket chain, as in `HashMap.get`:
`for entry in bucket: if entry.key == key: return entry.value`. -/
def bucketFind {α : Type} : List (Entry α) → String → Option α
  | [], _ => none
  | e :: rest, k => if e.key = k then some e.value else bucketFind rest k

/-- Whether some entry of the bucket carries the given key. -/
def bucketHasKey {α : Type} (b : List (Entry α)) (k : String) : Bool :=
  b.any (fun e => e.key == k)

/-- Embeds the update branch of `HashMap.set`: the first entry whose key
matches gets its value overwritten in place (`entry.value = value`). -/
def setValueFirst {α : Type} : List (Entry α) → String → α → List (Entry α)
  | [], _, _ => []
  | e :: rest, k, v =>
    if e.key = k then ⟨e.key, v⟩ :: rest else e :: setValueFirst rest k v

/-- Embeds `bucket.remove(entry)` in `HashMap.delete`: the first entry whose
key matches is removed from the chain. -/
def removeFirstKey {α : Type} : List (Entry α) → String → List (Entry α)
  | [], _ => []
  | e :: rest, k => if e.key = k then rest else e :: removeFirstKey rest k

/-! ### Prime finding (src/inventory.py, HashMap._next_prime) -/

/-- Embeds the primality loop body of `_next_prime`: trial division of the
odd candidate `c` by every odd `i` in `range(3, int(c ** 0.5) + 1, 2)`. -/
def isPrimeTrial (c : Nat) : Bool :=
  (List.range' 3 ((Nat.sqrt c - 1) / 2) 2).all (fun i => c % i != 0)

/-- The candidate-scanning loop of `_next_prime` (`candidate += 2` until the
trial division succeeds).  The Python loop is unbounded; here it carries a
fuel argument, which lemma `nextPrimeFrom_prime` shows is never exhausted
for the fuel chosen in `nextPrime`. -/
def nextPrimeFrom : Nat → Nat → Nat
  | 0, c => c
  | fuel + 1, c => if isPrimeTrial c then c else nextPrimeFrom fuel (c + 2)

/-- Embeds `HashMap._next_prime(n)`: the next prime at or after `n`
(returning 2 for `n <= 2`, and starting the scan at `n` or `n + 1`,
whichever is odd). -/
def nextPrime (n : Nat) : Nat :=
  if n ≤ 2 then 2
  else nextPrimeFrom (n + 1) (if n % 2 = 1 then n else n + 1)

/-! ### The hash map (src/inventory.py, class HashMap) -/

/-- Embeds class `HashMap`: `size` buckets, `count` stored entries, and the
bucket array itself (a list of chains). -/
structure HashMap (α : Type) where
  size : Nat
  count : Nat
  buckets : List (List (Entry α))
  deriving Repr

/-- Embeds `HashMap.__init__(size)`: `size` empty buckets, count 0. -/
def HashMap.init (α : Type) (size : Nat) : HashMap α :=
  ⟨size, 0, List.replicate size []⟩

/-- Embeds `HashMap._hash`: polynomial accumulation `total = total * 31 + ord(c)`
over the characters of the key. -/
def hashString (k : String) : Nat :=
  k.data.foldl (fun t c => t * 31 + c.toNat) 0

/-- Bucket index of a key: `hashString k % size`. -/
def hashIdx (size : Nat) (k : String) : Nat :=
  hashString k % size

/-- The bucket a key hashes into. -/
def HashMap.bucketOf {α : Type} (m : HashMap α) (k : String) : List (Entry α) :=
  m.buckets.getD (hashIdx m.size k) []

/-- Embeds `HashMap.get`. -/
def HashMap.get {α : Type} (m : HashMap α) (k : String) : Option α :=
  bucketFind (m.bucketOf k) k

/-- Whether the key occurs in its bucket (the scan at the top of `set`). -/
def HashMap.keyExists {α : Type} (m : HashMap α) (k : String) : Bool :=
  bucketHasKey (m.bucketOf k) k

/-- Embeds `HashMap.all_entries`: every entry, bucket by bucket. -/
def allEntriesList {α : Type} (m : HashMap α) : List (Entry α) :=
  m.buckets.flatten

/-- The insertion part of `HashMap.set`, before the load-factor check:
update the value in place if the key exists, otherwise append a fresh entry
to the chain and increment `count`. -/
def HashMap.insertPhase {α : Type} (m : HashMap α) (k : String) (v : α) : HashMap α :=
  let i := hashIdx m.size k
  let b := m.bucketOf k
  if bucketHasKey b k then
    { m with buckets := m.buckets.set i (setValueFirst b k v) }
  else
    { m with buckets := m.buckets.set i (b ++ [⟨k, v⟩]), count := m.count + 1 }

/-- Embeds `HashMap.set` together with `HashMap._resize`.  After a fresh
insertion, if the load factor `count / size` exceeds 0.75 (equivalently
`3 * size < 4 * count`), all entries are re-inserted into
`nextPrime (size * 2)` fresh buckets, exactly as `_resize` does by calling
`set` recursively.  That recursion is not structurally terminating, so it
is embedded with a fuel argument; `HashMap.set` below passes fuel
`count + 2`, and on every store whose load factor was within the threshold
the rehash never consults the fuel (see lemma `rehashFold_spec`). -/
def setFuel {α : Type} : Nat → HashMap α → String → α → HashMap α
  | fuel, m, k, v =>
    let m1 := m.insertPhase k v
    if m.keyExists k then
      m1
    else if 3 * m1.size < 4 * m1.count then
      match fuel with
      | 0 => m1
      | fuel' + 1 =>
        (allEntriesList m1).foldl (fun acc e => setFuel fuel' acc e.key e.value)
          (HashMap.init α (nextPrime (m1.size * 2)))
    else m1

/-- Embeds `HashMap.set(key, value)`. -/
def HashMap.set {α : Type} (m : HashMap α) (k : String) (v : α) : HashMap α :=
  setFuel (m.count + 2) m k v

/-- Embeds `HashMap.delete(key)`: remove the first matching entry from its
chain, decrement `count`, and report whether a removal occurred. -/
def HashMap.delete {α : Type} (m : HashMap α) (k : String) : Bool × HashMap α :=
  let i := hashIdx m.size k
  let b := m.bucketOf k
  if bucketHasKey b k then
    (true, { m with buckets := m.buckets.set i (removeFirstKey b k), count := m.count - 1 })
  else
    (false, m)

/-! ### Bucket-level lemmas -/

theorem bucketHasKey_iff {α : Type} (b : List (Entry α)) (k : String) :
    bucketHasKey b k = true ↔ ∃ e ∈ b, e.key = k := by
  simp [bucketHasKey, List.any_eq_true]

theorem bucketFind_eq_none_of_not_hasKey {α : Type} (b : List (Entry α)) (k : String)
    (h : bucketHasKey b k = false) : bucketFind b k = none := by
  induction b with
  | nil => rfl
  | cons e rest ih =>
    simp only [bucketHasKey, List.any_cons, Bool.or_eq_false_iff, beq_eq_false_iff_ne] at h
    simp only [bucketFind, if_neg h.1]
    exact ih (by simpa [bucketHasKey] using h.2)

theorem bucketFind_mem {α : Type} (b : List (Entry α)) (k : String) (v : α)
    (h : bucketFind b k = some v) : (⟨k, v⟩ : Entry α) ∈ b := by
  induction b with
  | nil => simp [bucketFind] at h
  | cons e rest ih =>
    obtain ⟨ek, ev⟩ := e
    by_cases hk : ek = k
    · subst hk
      simp only [bucketFind, if_pos rfl] at h
      injection h with h
      subst h
      exact List.mem_cons_self _ _
    · simp only [bucketFind, if_neg hk] at h
      exact List.mem_cons_of_mem _ (ih h)

theorem bucketFind_of_mem_nodup {α : Type} (b : List (Entry α)) (e : Entry α)
    (hmem : e ∈ b) (hnd : (b.map Entry.key).Nodup) : bucketFind b e.key = some e.value := by
  induction b with
  | nil => simp at hmem
  | cons e0 rest ih =>
    simp only [List.map_cons, List.nodup_cons, List.mem_map] at hnd
    rcases List.mem_cons.mp hmem with h | h
    · cases h
      simp [bucketFind]
    · have hne : e0.key ≠ e.key := fun hk => hnd.1 ⟨e, h, hk.symm⟩
      simp only [bucketFind, if_neg hne]
      exact ih h hnd.2

theorem setValueFirst_map_key {α : Type} (b : List (Entry α)) (k : String) (v : α) :
    (setValueFirst b k v).map Entry.key = b.map Entry.key := by
  induction b with
  | nil => rfl
  | cons e rest ih =>
    by_cases hk : e.key = k
    · simp [setValueFirst, if_pos hk]
    · simp [setValueFirst, if_neg hk, ih]

theorem mem_setValueFirst_key {α : Type} (b : List (Entry α)) (k : String) (v : α)
    (e : Entry α) (h : e ∈ setValueFirst b k v) : e.key ∈ b.map Entry.key := by
  have := setValueFirst_map_key b k v
  rw [← this]
  exact List.mem_map_of_mem Entry.key h

theorem bucketFind_setValueFirst_self {α : Type} (b : List (Entry α)) (k : String) (v : α)
    (h : bucketHasKey b k = true) : bucketFind (setValueFirst b k v) k = some v := by
  induction b with
  | nil => simp [bucketHasKey] at h
  | cons e rest ih =>
    by_cases hk : e.key = k
    · simp [setValueFirst, if_pos hk, bucketFind, hk]
    · simp only [setValueFirst, if_neg hk, bucketFind, if_neg hk]
      exact ih (by simpa [bucketHasKey, hk] using h)

theorem bucketFind_setValueFirst_ne {α : Type} (b : List (Entry α)) (k k' : String) (v : α)
    (h : k' ≠ k) : bucketFind (setValueFirst b k v) k' = bucketFind b k' := by
  induction b with
  | nil => rfl
  | cons e rest ih =>
    by_cases hk : e.key = k
    · subst hk
      simp [setValueFirst, bucketFind, if_neg (Ne.symm h)]
    · simp only [setValueFirst, if_neg hk, bucketFind, ih]

theorem setValueFirst_getElem? {α : Type} (b : List (Entry α)) (k : String) (v : α) (n : Nat) :
    (setValueFirst b k v)[n]? = b[n]? ∨
      ((b[n]?).map Entry.key = some k ∧ (setValueFirst b k v)[n]? = some ⟨k, v⟩) := by
  induction b generalizing n with
  | nil => left; rfl
  | cons e rest ih =>
    by_cases hk : e.key = k
    · cases n with
      | zero => right; subst hk; simp [setValueFirst]
      | succ n => left; simp [setValueFirst, if_pos hk]
    · cases n with
      | zero => left; simp [setValueFirst, if_neg hk]
      | succ n =>
        rcases ih n with h | h
        · left; simpa [setValueFirst, if_neg hk] using h
        · right; simpa [setValueFirst, if_neg hk] using h

theorem removeFirstKey_perm {α : Type} (b : List (Entry α)) (k : String)
    (h : bucketHasKey b k = true) :
    ∃ e : Entry α, e.key = k ∧ List.Perm b (e :: removeFirstKey b k) := by
  induction b with
  | nil => simp [bucketHasKey] at h
  | cons e rest ih =>
    by_cases hk : e.key = k
    · exact ⟨e, hk, by simp [removeFirstKey, if_pos hk]⟩
    · have h' : bucketHasKey rest k = true := by simpa [bucketHasKey, hk] using h
      rcases ih h' with ⟨e', hk', hperm⟩
      refine ⟨e', hk', ?_⟩
      simp only [removeFirstKey, if_neg hk]
      exact (hperm.cons e).trans (List.Perm.swap e' e _)

theorem removeFirstKey_map_key_sublist {α : Type} (b : List (Entry α)) (k : String) :
    List.Sublist ((removeFirstKey b k).map Entry.key) (b.map Entry.key) := by
  induction b with
  | nil => simp [removeFirstKey]
  | cons e rest ih =>
    by_cases hk : e.key = k
    · simp only [removeFirstKey, if_pos hk, List.map_cons]
      exact (List.sublist_cons_self _ _)
    · simp only [removeFirstKey, if_neg hk, List.map_cons]
      exact ih.cons₂ e.key

/-! ### Bucket-array surgery -/

theorem getD_eq_getElem_of_lt {β : Type} (l : List β) (i : Nat) (d : β) (h : i < l.length) :
    l.getD i d = l[i] := by
  rw [List.getD_eq_getElem?_getD, List.getElem?_eq_getElem h]
  rfl

theorem flatten_set_perm {β : Type} (l : List (List β)) (i : Nat) (b : List β)
    (h : i < l.length) :
    List.Perm ((l.set i b).flatten ++ l.getD i []) (l.flatten ++ b) := by
  have hset : l.set i b = l.take i ++ b :: l.drop (i + 1) :=
    List.set_eq_take_cons_drop b h
  have hsplit : l = l.take i ++ l[i] :: l.drop (i + 1) := by
    conv_lhs => rw [← List.take_append_drop i l]
    rw [← List.get_drop_eq_drop l i h]
  rw [getD_eq_getElem_of_lt l i [] h, hset]
  conv_rhs => rw [hsplit]
  simp only [List.flatten_append, List.flatten_cons]
  rw [← Multiset.coe_eq_coe, ← Multiset.coe_add, ← Multiset.coe_add, ← Multiset.coe_add,
    ← Multiset.coe_add, ← Multiset.coe_add, ← Multiset.coe_add]
  abel

/-! ### Structural invariant of the hash map -/

/-- The structural part of the invariant: at least one bucket, bucket array
of length `size`, `count` equal to the number of stored entries, globally
distinct keys, and every entry sitting in the bucket its key hashes to. -/
def HashMap.Pre {α : Type} (m : HashMap α) : Prop :=
  1 ≤ m.size ∧
  m.buckets.length = m.size ∧
  m.count = (allEntriesList m).length ∧
  ((allEntriesList m).map Entry.key).Nodup ∧
  ∀ i : Nat, ∀ e ∈ m.buckets.getD i [], hashIdx m.size e.key = i

/-- Full invariant: structure plus the load-factor bound
`count / size ≤ 0.75` that holds between operations. -/
def HashMap.WF {α : Type} (m : HashMap α) : Prop :=
  m.Pre ∧ 4 * m.count ≤ 3 * m.size

theorem hashIdx_lt {size : Nat} (h : 1 ≤ size) (k : String) : hashIdx size k < size :=
  Nat.mod_lt _ h

theorem bucketOf_eq_getElem {α : Type} (m : HashMap α) (k : String)
    (hlen : m.buckets.length = m.size) (hsz : 1 ≤ m.size) :
    ∃ h : hashIdx m.size k < m.buckets.length, m.bucketOf k = m.buckets[hashIdx m.size k] := by
  have h : hashIdx m.size k < m.buckets.length := by
    rw [hlen]; exact hashIdx_lt hsz k
  exact ⟨h, getD_eq_getElem_of_lt _ _ _ h⟩

theorem keyExists_iff_mem_keys {α : Type} (m : HashMap α) (k : String)
    (hgood : ∀ i : Nat, ∀ e ∈ m.buckets.getD i [], hashIdx m.size e.key = i) :
    m.keyExists k = true ↔ k ∈ (allEntriesList m).map Entry.key := by
  constructor
  · intro h
    rcases (bucketHasKey_iff _ _).mp h with ⟨e, hmem, hkey⟩
    have hne : m.bucketOf k ≠ [] := fun hnil => by simp [hnil] at hmem
    have hlt : hashIdx m.size k < m.buckets.length := by
      by_contra hge
      exact hne (by
        unfold HashMap.bucketOf
        rw [List.getD_eq_getElem?_getD, List.getElem?_eq_none (Nat.le_of_not_lt hge)]
        rfl)
    have hbm : m.bucketOf k ∈ m.buckets := by
      unfold HashMap.bucketOf
      rw [getD_eq_getElem_of_lt _ _ _ hlt]
      exact List.getElem_mem hlt
    exact List.mem_map.mpr ⟨e, List.mem_flatten.mpr ⟨m.bucketOf k, hbm, hmem⟩, hkey⟩
  · intro h
    rcases List.mem_map.mp h with ⟨e, hmem, hkey⟩
    rcases List.mem_flatten.mp hmem with ⟨b, hb, heb⟩
    rcases List.mem_iff_getElem.mp hb with ⟨j, hj, hjb⟩
    have hgetD : m.buckets.getD j [] = b := by rw [getD_eq_getElem_of_lt _ _ _ hj, hjb]
    have hidx : hashIdx m.size e.key = j := hgood j e (hgetD ▸ heb)
    have : m.bucketOf k = b := by
      unfold HashMap.bucketOf
      rw [← hkey, hidx, hgetD]
    exact (bucketHasKey_iff _ _).mpr ⟨e, this ▸ heb, hkey⟩

theorem get_iff_mem {α : Type} (m : HashMap α) (k : String) (v : α)
    (hPre : m.Pre) : m.get k = some v ↔ (⟨k, v⟩ : Entry α) ∈ allEntriesList m := by
  obtain ⟨hsz, hlen, _, hnd, hgood⟩ := hPre
  constructor
  · intro h
    have hmem := bucketFind_mem _ _ _ h
    rcases bucketOf_eq_getElem m k hlen hsz with ⟨hlt, heq⟩
    have hbm : m.bucketOf k ∈ m.buckets := by rw [heq]; exact List.getElem_mem hlt
    exact List.mem_flatten.mpr ⟨m.bucketOf k, hbm, hmem⟩
  · intro h
    rcases List.mem_flatten.mp h with ⟨b, hb, heb⟩
    rcases List.mem_iff_getElem.mp hb with ⟨j, hj, hjb⟩
    have hgetD : m.buckets.getD j [] = b := by rw [getD_eq_getElem_of_lt _ _ _ hj, hjb]
    have hidx : hashIdx m.size k = j := hgood j _ (hgetD ▸ heb)
    have hbeq : m.bucketOf k = b := by
      unfold HashMap.bucketOf
      rw [hidx, hgetD]
    have hndb : (b.map Entry.key).Nodup := by
      have hsub : List.Sublist b (allEntriesList m) := List.sublist_flatten_of_mem hb
      exact List.Nodup.sublist (hsub.map Entry.key) hnd
    have := bucketFind_of_mem_nodup b ⟨k, v⟩ heb hndb
    rw [HashMap.get, hbeq]
    exact this

theorem getD_set_ne {β : Type} (l : List β) (i j : Nat) (a d : β) (h : i ≠ j) :
    (l.set i a).getD j d = l.getD j d := by
  rw [List.getD_eq_getElem?_getD, List.getD_eq_getElem?_getD, List.getElem?_set_ne h]

theorem getD_set_self {β : Type} (l : List β) (i : Nat) (a d : β) (h : i < l.length) :
    (l.set i a).getD i d = a := by
  rw [List.getD_eq_getElem?_getD]
  have : (l.set i a)[i]? = some a := by
    rw [List.getElem?_set_self']
    simp [List.getElem?_eq_getElem h]
  rw [this]
  rfl

theorem flatten_replicate_nil {β : Type} (n : Nat) :
    (List.replicate n ([] : List β)).flatten = [] := by
  induction n with
  | zero => rfl
  | succ n ih => simp [List.replicate_succ, ih]

theorem init_pre {α : Type} (s : Nat) (h : 1 ≤ s) : (HashMap.init α s).Pre := by
  refine ⟨h, by simp [HashMap.init], ?_, ?_, ?_⟩
  · simp [HashMap.init, allEntriesList, flatten_replicate_nil]
  · simp [HashMap.init, allEntriesList, flatten_replicate_nil]
  · intro i e he
    exfalso
    revert he
    unfold HashMap.init
    rw [List.getD_eq_getElem?_getD, List.getElem?_replicate]
    by_cases hi : i < s <;> simp [hi]

theorem init_keyExists {α : Type} (s : Nat) (k : String) :
    (HashMap.init α s).keyExists k = false := by
  unfold HashMap.keyExists HashMap.bucketOf HashMap.init
  rw [List.getD_eq_getElem?_getD, List.getElem?_replicate]
  by_cases hi : hashIdx s k < s <;> simp [hi, bucketHasKey]

/-! ### Preservation lemmas for `insertPhase` -/

theorem insertPhase_update {α : Type} (m : HashMap α) (k : String) (v : α)
    (hPre : m.Pre) (hex : m.keyExists k = true) :
    (m.insertPhase k v).Pre ∧ (m.insertPhase k v).size = m.size ∧
      (m.insertPhase k v).count = m.count ∧
      List.Perm ((allEntriesList (m.insertPhase k v)).map Entry.key)
        ((allEntriesList m).map Entry.key) := by
  obtain ⟨hsz, hlen, hcnt, hnd, hgood⟩ := hPre
  have hlt : hashIdx m.size k < m.buckets.length := by
    rw [hlen]; exact hashIdx_lt hsz k
  have hbK : bucketHasKey (m.bucketOf k) k = true := hex
  have hsizeEq : (m.insertPhase k v).size = m.size := by
    unfold HashMap.insertPhase
    rw [if_pos hbK]
  have hcountEq : (m.insertPhase k v).count = m.count := by
    unfold HashMap.insertPhase
    rw [if_pos hbK]
  have hbucketsEq : (m.insertPhase k v).buckets
      = m.buckets.set (hashIdx m.size k) (setValueFirst (m.bucketOf k) k v) := by
    unfold HashMap.insertPhase
    rw [if_pos hbK]
  have hgetD : m.buckets.getD (hashIdx m.size k) [] = m.bucketOf k := rfl
  have hEnt : allEntriesList (m.insertPhase k v)
      = (m.buckets.set (hashIdx m.size k) (setValueFirst (m.bucketOf k) k v)).flatten := by
    unfold allEntriesList
    rw [hbucketsEq]
  have hperm := flatten_set_perm m.buckets (hashIdx m.size k)
    (setValueFirst (m.bucketOf k) k v) hlt
  rw [hgetD] at hperm
  have hkeys : List.Perm
      ((allEntriesList (m.insertPhase k v)).map Entry.key)
      ((allEntriesList m).map Entry.key) := by
    have hmap := hperm.map Entry.key
    simp only [List.map_append, setValueFirst_map_key] at hmap
    rw [hEnt]
    exact (List.perm_append_right_iff _).mp hmap
  refine ⟨⟨?_, ?_, ?_, ?_, ?_⟩, hsizeEq, hcountEq, hkeys⟩
  · rw [hsizeEq]; exact hsz
  · rw [hbucketsEq, hsizeEq]
    simpa using hlen
  · rw [hcountEq, hcnt]
    have hl := hkeys.length_eq
    simp only [List.length_map] at hl
    exact hl.symm
  · exact hkeys.nodup_iff.mpr hnd
  · intro j e he
    rw [hbucketsEq] at he
    rw [hsizeEq]
    by_cases hij : hashIdx m.size k = j
    · subst hij
      rw [getD_set_self _ _ _ _ hlt] at he
      have hk' := mem_setValueFirst_key _ _ _ _ he
      rcases List.mem_map.mp hk' with ⟨e0, he0, hkey0⟩
      have h0 := hgood (hashIdx m.size k) e0 (by rw [hgetD]; exact he0)
      rw [← hkey0]
      exact h0
    · rw [getD_set_ne _ _ _ _ _ hij] at he
      exact hgood j e he

theorem insertPhase_fresh {α : Type} (m : HashMap α) (k : String) (v : α)
    (hPre : m.Pre) (hnew : m.keyExists k = false) :
    (m.insertPhase k v).Pre ∧ (m.insertPhase k v).size = m.size ∧
      (m.insertPhase k v).count = m.count + 1 ∧
      List.Perm (allEntriesList (m.insertPhase k v))
        (allEntriesList m ++ [⟨k, v⟩]) := by
  obtain ⟨hsz, hlen, hcnt, hnd, hgood⟩ := hPre
  have hlt : hashIdx m.size k < m.buckets.length := by
    rw [hlen]; exact hashIdx_lt hsz k
  have hbK : bucketHasKey (m.bucketOf k) k = false := hnew
  have hsizeEq : (m.insertPhase k v).size = m.size := by
    unfold HashMap.insertPhase
    rw [if_neg (by simp [hbK])]
  have hcountEq : (m.insertPhase k v).count = m.count + 1 := by
    unfold HashMap.insertPhase
    rw [if_neg (by simp [hbK])]
  have hbucketsEq : (m.insertPhase k v).buckets
      = m.buckets.set (hashIdx m.size k) (m.bucketOf k ++ [⟨k, v⟩]) := by
    unfold HashMap.insertPhase
    rw [if_neg (by simp [hbK])]
  have hgetD : m.buckets.getD (hashIdx m.size k) [] = m.bucketOf k := rfl
  have hEnt : allEntriesList (m.insertPhase k v)
      = (m.buckets.set (hashIdx m.size k) (m.bucketOf k ++ [⟨k, v⟩])).flatten := by
    unfold allEntriesList
    rw [hbucketsEq]
  have hperm0 := flatten_set_perm m.buckets (hashIdx m.size k)
    (m.bucketOf k ++ [⟨k, v⟩]) hlt
  rw [hgetD] at hperm0
  have hperm : List.Perm (allEntriesList (m.insertPhase k v))
      (allEntriesList m ++ [⟨k, v⟩]) := by
    rw [hEnt]
    have hstep : List.Perm (m.buckets.flatten ++ (m.bucketOf k ++ [⟨k, v⟩]))
        ((m.buckets.flatten ++ [⟨k, v⟩]) ++ m.bucketOf k) := by
      rw [← Multiset.coe_eq_coe, ← Multiset.coe_add, ← Multiset.coe_add,
        ← Multiset.coe_add, ← Multiset.coe_add]
      abel
    have := hperm0.trans hstep
    exact (List.perm_append_right_iff _).mp this
  have hknotin : k ∉ (allEntriesList m).map Entry.key := by
    intro hk
    have := (keyExists_iff_mem_keys m k hgood).mpr hk
    rw [hnew] at this
    exact Bool.false_ne_true this
  have hkeys : List.Perm ((allEntriesList (m.insertPhase k v)).map Entry.key)
      ((allEntriesList m).map Entry.key ++ [k]) := by
    have := hperm.map Entry.key
    simpa using this
  refine ⟨⟨?_, ?_, ?_, ?_, ?_⟩, hsizeEq, hcountEq, hperm⟩
  · rw [hsizeEq]; exact hsz
  · rw [hbucketsEq, hsizeEq]
    simpa using hlen
  · rw [hcountEq, hcnt, hperm.length_eq]
    simp
  · rw [hkeys.nodup_iff]
    simp only [List.nodup_append, List.nodup_cons, List.not_mem_nil, not_false_iff,
      List.nodup_nil, and_true, true_and]
    constructor
    · exact hnd
    · intro a ha hb
      simp only [List.mem_singleton] at hb
      subst hb
      exact hknotin ha
  · intro j e he
    rw [hbucketsEq] at he
    rw [hsizeEq]
    by_cases hij : hashIdx m.size k = j
    · subst hij
      rw [getD_set_self _ _ _ _ hlt] at he
      rcases List.mem_append.mp he with h | h
      · exact hgood (hashIdx m.size k) e (by rw [hgetD]; exact h)
      · simp only [List.mem_singleton] at h
        subst h
        rfl
    · rw [getD_set_ne _ _ _ _ _ hij] at he
      exact hgood j e he

/-! ### Unfolding equations for `setFuel` -/

theorem setFuel_of_keyExists {α : Type} (fuel : Nat) (m : HashMap α) (k : String) (v : α)
    (h : m.keyExists k = true) : setFuel fuel m k v = m.insertPhase k v := by
  unfold setFuel
  rw [if_pos h]

theorem setFuel_no_trigger {α : Type} (fuel : Nat) (m : HashMap α) (k : String) (v : α)
    (h1 : m.keyExists k = false)
    (h2 : ¬ 3 * (m.insertPhase k v).size < 4 * (m.insertPhase k v).count) :
    setFuel fuel m k v = m.insertPhase k v := by
  unfold setFuel
  rw [if_neg (by simp [h1]), if_neg h2]

theorem setFuel_trigger {α : Type} (fuel' : Nat) (m : HashMap α) (k : String) (v : α)
    (h1 : m.keyExists k = false)
    (h2 : 3 * (m.insertPhase k v).size < 4 * (m.insertPhase k v).count) :
    setFuel (fuel' + 1) m k v
      = (allEntriesList (m.insertPhase k v)).foldl
          (fun acc e => setFuel fuel' acc e.key e.value)
          (HashMap.init α (nextPrime ((m.insertPhase k v).size * 2))) := by
  rw [setFuel.eq_2, if_neg (by simp [h1]), if_pos h2]

/-! ### The rehashing fold of `_resize` -/

theorem rehashFold_spec {α : Type} (fuel : Nat) (es : List (Entry α)) :
    ∀ acc : HashMap α, acc.Pre →
      (es.map Entry.key).Nodup →
      (∀ e ∈ es, acc.keyExists e.key = false) →
      4 * (acc.count + es.length) ≤ 3 * acc.size →
      (es.foldl (fun a e => setFuel fuel a e.key e.value) acc).Pre ∧
        (es.foldl (fun a e => setFuel fuel a e.key e.value) acc).size = acc.size ∧
        (es.foldl (fun a e => setFuel fuel a e.key e.value) acc).count
          = acc.count + es.length ∧
        List.Perm (allEntriesList (es.foldl (fun a e => setFuel fuel a e.key e.value) acc))
          (allEntriesList acc ++ es) := by
  induction es with
  | nil =>
    intro acc hPre _ _ _
    exact ⟨hPre, rfl, rfl, by simp⟩
  | cons e rest ih =>
    intro acc hPre hnd hfree hload
    have hnewe : acc.keyExists e.key = false := hfree e (List.mem_cons_self _ _)
    obtain ⟨hPre1, hsize1, hcount1, hperm1⟩ :=
      insertPhase_fresh acc e.key e.value hPre hnewe
    have hstepArith : ¬ 3 * (acc.insertPhase e.key e.value).size
        < 4 * (acc.insertPhase e.key e.value).count := by
      rw [hsize1, hcount1]
      have : 4 * (acc.count + 1) ≤ 3 * acc.size := by
        calc 4 * (acc.count + 1) ≤ 4 * (acc.count + (e :: rest).length) := by
              apply Nat.mul_le_mul_left
              apply Nat.add_le_add_left
              simp
          _ ≤ 3 * acc.size := hload
      omega
    have hstep : setFuel fuel acc e.key e.value = acc.insertPhase e.key e.value :=
      setFuel_no_trigger fuel acc e.key e.value hnewe hstepArith
    have hndTail : (rest.map Entry.key).Nodup := by
      simp only [List.map_cons, List.nodup_cons] at hnd
      exact hnd.2
    have hheadNotTail : e.key ∉ rest.map Entry.key := by
      simp only [List.map_cons, List.nodup_cons] at hnd
      exact hnd.1
    have hgood1 := hPre1.2.2.2.2
    have hfree1 : ∀ e' ∈ rest, (acc.insertPhase e.key e.value).keyExists e'.key = false := by
      intro e' he'
      by_contra hcon
      have hcon' : (acc.insertPhase e.key e.value).keyExists e'.key = true := by
        cases hk : (acc.insertPhase e.key e.value).keyExists e'.key
        · exact absurd hk hcon
        · rfl
      have hmem := (keyExists_iff_mem_keys _ _ hgood1).mp hcon'
      have hmem' : e'.key ∈ (allEntriesList acc).map Entry.key ++ [e.key] := by
        have := (hperm1.map Entry.key).mem_iff.mp hmem
        simpa using this
      rcases List.mem_append.mp hmem' with h | h
      · have := (keyExists_iff_mem_keys acc e'.key hPre.2.2.2.2).mpr h
        rw [hfree e' (List.mem_cons_of_mem _ he')] at this
        exact Bool.false_ne_true this
      · simp only [List.mem_singleton] at h
        exact hheadNotTail (h ▸ List.mem_map_of_mem Entry.key he')
    have hloadTail : 4 * ((acc.insertPhase e.key e.value).count + rest.length)
        ≤ 3 * (acc.insertPhase e.key e.value).size := by
      rw [hsize1, hcount1]
      calc 4 * (acc.count + 1 + rest.length) = 4 * (acc.count + (e :: rest).length) := by
            simp [List.length_cons]
            ring_nf
        _ ≤ 3 * acc.size := hload
    obtain ⟨hPreR, hsizeR, hcountR, hpermR⟩ :=
      ih (acc.insertPhase e.key e.value) hPre1 hndTail hfree1 hloadTail
    have hfoldEq : (e :: rest).foldl (fun a e => setFuel fuel a e.key e.value) acc
        = rest.foldl (fun a e => setFuel fuel a e.key e.value)
            (acc.insertPhase e.key e.value) := by
      simp only [List.foldl_cons, hstep]
    refine ⟨by rw [hfoldEq]; exact hPreR, by rw [hfoldEq, hsizeR, hsize1],
      by rw [hfoldEq, hcountR, hcount1, List.length_cons]; ring, ?_⟩
    rw [hfoldEq]
    refine hpermR.trans ?_
    have h2 : allEntriesList acc ++ [e] ++ rest = allEntriesList acc ++ e :: rest := by
      simp
    rw [← h2]
    exact hperm1.append_right rest

/-! ### Correctness of the prime search -/

theorem nextPrimeFrom_ge (fuel c : Nat) : c ≤ nextPrimeFrom fuel c := by
  induction fuel generalizing c with
  | zero => exact Nat.le_refl c
  | succ fuel ih =>
    unfold nextPrimeFrom
    by_cases h : isPrimeTrial c = true
    · rw [if_pos h]
    · rw [if_neg h]
      calc c ≤ c + 2 := Nat.le_add_right c 2
        _ ≤ nextPrimeFrom fuel (c + 2) := ih (c + 2)

theorem isPrimeTrial_prime (c : Nat) (hodd : c % 2 = 1) (h3 : 3 ≤ c)
    (h : isPrimeTrial c = true) : Nat.Prime c := by
  rw [Nat.prime_def_le_sqrt]
  refine ⟨by omega, ?_⟩
  intro m hm2 hmsqrt hdvd
  have hc2 : ¬ (2 ∣ c) := by omega
  by_cases hmodd : m % 2 = 0
  · exact hc2 (dvd_trans (Nat.dvd_of_mod_eq_zero hmodd) hdvd)
  · have hm3 : 3 ≤ m := by omega
    have hmem : m ∈ List.range' 3 ((Nat.sqrt c - 1) / 2) 2 := by
      rw [List.mem_range']
      refine ⟨(m - 3) / 2, ?_, ?_⟩
      · have hN : 3 ≤ Nat.sqrt c := le_trans hm3 hmsqrt
        omega
      · omega
    have hall := List.all_eq_true.mp h m hmem
    simp only [bne_iff_ne, ne_eq, decide_eq_true_eq] at hall
    exact hall (Nat.dvd_iff_mod_eq_zero.mp hdvd)

theorem prime_isPrimeTrial (c : Nat) (h2 : 2 ≤ c) (hp : Nat.Prime c) :
    isPrimeTrial c = true := by
  rw [isPrimeTrial, List.all_eq_true]
  intro i hi
  rw [List.mem_range'] at hi
  rcases hi with ⟨j, hj, hij⟩
  have hi3 : 3 ≤ i := by omega
  have hisqrt : i ≤ Nat.sqrt c := by omega
  have hic : i < c := lt_of_le_of_lt hisqrt (Nat.sqrt_lt_self (by omega))
  simp only [bne_iff_ne, ne_eq, decide_eq_true_eq]
  intro hmod
  have hdvd : i ∣ c := Nat.dvd_of_mod_eq_zero hmod
  rcases (Nat.Prime.eq_one_or_self_of_dvd hp i hdvd) with h | h
  · omega
  · omega

theorem nextPrimeFrom_prime : ∀ (fuel c : Nat), c % 2 = 1 → 3 ≤ c →
    (∃ j, j < fuel ∧ Nat.Prime (c + 2 * j)) → Nat.Prime (nextPrimeFrom fuel c) := by
  intro fuel
  induction fuel with
  | zero =>
    intro c _ _ hwit
    rcases hwit with ⟨j, hj, _⟩
    omega
  | succ fuel ih =>
    intro c hodd h3 hwit
    unfold nextPrimeFrom
    by_cases h : isPrimeTrial c = true
    · rw [if_pos h]
      exact isPrimeTrial_prime c hodd h3 h
    · rw [if_neg h]
      rcases hwit with ⟨j, hj, hpj⟩
      have hj0 : j ≠ 0 := by
        intro h0
        subst h0
        simp only [Nat.mul_zero, Nat.add_zero] at hpj
        exact h (prime_isPrimeTrial c (by omega) hpj)
      refine ih (c + 2) (by omega) (by omega) ⟨j - 1, by omega, ?_⟩
      have : c + 2 + 2 * (j - 1) = c + 2 * j := by omega
      rw [this]
      exact hpj

theorem prime_odd_of_three_le {p : Nat} (hp : Nat.Prime p) (h3 : 3 ≤ p) : p % 2 = 1 := by
  rcases Nat.Prime.eq_one_or_self_of_dvd hp 2 with h
  by_contra h2
  have : (2 : Nat) ∣ p := Nat.dvd_of_mod_eq_zero (by omega)
  rcases (Nat.Prime.eq_one_or_self_of_dvd hp 2 this) with h | h <;> omega

theorem nextPrime_prime (n : Nat) : Nat.Prime (nextPrime n) := by
  unfold nextPrime
  by_cases hn : n ≤ 2
  · rw [if_pos hn]
    exact Nat.prime_two
  · rw [if_neg hn]
    have hn3 : 3 ≤ n := by omega
    set start := if n % 2 = 1 then n else n + 1 with hstart
    have hodd : start % 2 = 1 := by
      rw [hstart]
      by_cases h : n % 2 = 1
      · rw [if_pos h]; exact h
      · rw [if_neg h]; omega
    have h3 : 3 ≤ start := by
      rw [hstart]
      by_cases h : n % 2 = 1
      · rw [if_pos h]; exact hn3
      · rw [if_neg h]; omega
    have hstartle : start ≤ n + 1 := by
      rw [hstart]
      by_cases h : n % 2 = 1
      · rw [if_pos h]; omega
      · rw [if_neg h]
    refine nextPrimeFrom_prime (n + 1) start hodd h3 ?_
    by_cases hsp : Nat.Prime start
    · exact ⟨0, by omega, by simpa using hsp⟩
    · rcases Nat.exists_prime_lt_and_le_two_mul start (by omega) with ⟨p, hp, hlo, hhi⟩
      have hpodd : p % 2 = 1 := prime_odd_of_three_le hp (by omega)
      refine ⟨(p - start) / 2, by omega, ?_⟩
      have : start + 2 * ((p - start) / 2) = p := by omega
      rw [this]
      exact hp

theorem nextPrime_ge (n : Nat) (h : 3 ≤ n) : n ≤ nextPrime n := by
  unfold nextPrime
  rw [if_neg (by omega)]
  by_cases hodd : n % 2 = 1
  · rw [if_pos hodd]
    exact nextPrimeFrom_ge _ _
  · rw [if_neg hodd]
    calc n ≤ n + 1 := Nat.le_succ n
      _ ≤ _ := nextPrimeFrom_ge _ _

theorem nextPrime_two : nextPrime 2 = 2 := rfl

theorem size_lt_nextPrime_double (s : Nat) (hs : 1 ≤ s) : s < nextPrime (s * 2) := by
  by_cases h1 : s = 1
  · subst h1
    rw [show (1 * 2 : Nat) = 2 by rfl, nextPrime_two]
    omega
  · have h2 : 2 ≤ s := by omega
    have := nextPrime_ge (s * 2) (by omega)
    omega

theorem load_after_resize (s c : Nat) (hs : 1 ≤ s) (hload : 4 * c ≤ 3 * s) :
    4 * (c + 1) ≤ 3 * nextPrime (s * 2) := by
  by_cases h1 : s = 1
  · subst h1
    rw [show (1 * 2 : Nat) = 2 by rfl, nextPrime_two]
    omega
  · have h2 : 2 ≤ s := by omega
    have := nextPrime_ge (s * 2) (by omega)
    omega

theorem two_le_nextPrime (n : Nat) : 2 ≤ nextPrime n :=
  (nextPrime_prime n).two_le

theorem removeFirstKey_sublist {α : Type} (b : List (Entry α)) (k : String) :
    List.Sublist (removeFirstKey b k) b := by
  induction b with
  | nil => simp [removeFirstKey]
  | cons e rest ih =>
    by_cases hk : e.key = k
    · simp only [removeFirstKey, if_pos hk]
      exact List.sublist_cons_self e rest
    · simp only [removeFirstKey, if_neg hk]
      exact ih.cons₂ e

/-! ### `set` preserves the invariant -/

theorem set_wf {α : Type} (m : HashMap α) (k : String) (v : α) (hWF : m.WF) :
    (m.set k v).WF := by
  obtain ⟨hPre, hload⟩ := hWF
  unfold HashMap.set
  by_cases hex : m.keyExists k = true
  · rw [setFuel_of_keyExists _ _ _ _ hex]
    obtain ⟨hPre1, hsz, hcnt, _⟩ := insertPhase_update m k v hPre hex
    refine ⟨hPre1, ?_⟩
    rw [hsz, hcnt]
    exact hload
  · have hex' : m.keyExists k = false := by
      cases h : m.keyExists k
      · rfl
      · exact absurd h hex
    obtain ⟨hPre1, hsz, hcnt, hperm⟩ := insertPhase_fresh m k v hPre hex'
    by_cases htrig : 3 * (m.insertPhase k v).size < 4 * (m.insertPhase k v).count
    · have hfuel : m.count + 2 = (m.count + 1) + 1 := rfl
      rw [hfuel, setFuel_trigger _ _ _ _ hex' htrig]
      have hs2 : 2 ≤ nextPrime ((m.insertPhase k v).size * 2) := two_le_nextPrime _
      have hinitPre := @init_pre α (nextPrime ((m.insertPhase k v).size * 2)) (by omega)
      have hlenm1 : (allEntriesList (m.insertPhase k v)).length = m.count + 1 := by
        have := hPre1.2.2.1
        omega
      have hloadR : 4 * ((HashMap.init α (nextPrime ((m.insertPhase k v).size * 2))).count
          + (allEntriesList (m.insertPhase k v)).length)
          ≤ 3 * (HashMap.init α (nextPrime ((m.insertPhase k v).size * 2))).size := by
        show 4 * (0 + (allEntriesList (m.insertPhase k v)).length)
          ≤ 3 * nextPrime ((m.insertPhase k v).size * 2)
        rw [hlenm1, hsz]
        simpa using load_after_resize m.size m.count hPre.1 hload
      obtain ⟨hPreR, hsizeR, hcountR, _⟩ :=
        rehashFold_spec (m.count + 1) (allEntriesList (m.insertPhase k v))
          (HashMap.init α (nextPrime ((m.insertPhase k v).size * 2))) hinitPre
          hPre1.2.2.2.1 (fun e _ => init_keyExists _ e.key) hloadR
      refine ⟨hPreR, ?_⟩
      rw [hsizeR, hcountR]
      show 4 * (0 + (allEntriesList (m.insertPhase k v)).length)
        ≤ 3 * nextPrime ((m.insertPhase k v).size * 2)
      rw [hlenm1, hsz]
      simpa using load_after_resize m.size m.count hPre.1 hload
    · rw [setFuel_no_trigger _ _ _ _ hex' htrig]
      exact ⟨hPre1, by omega⟩

/-! ### `delete` preserves the invariant -/

theorem delete_wf {α : Type} (m : HashMap α) (k : String) (hWF : m.WF) :
    ((m.delete k).2).WF := by
  obtain ⟨⟨hsz, hlen, hcnt, hnd, hgood⟩, hload⟩ := hWF
  by_cases hex : bucketHasKey (m.bucketOf k) k = true
  · have hlt : hashIdx m.size k < m.buckets.length := by
      rw [hlen]; exact hashIdx_lt hsz k
    have hdelSize : ((m.delete k).2).size = m.size := by
      unfold HashMap.delete
      rw [if_pos hex]
    have hdelCount : ((m.delete k).2).count = m.count - 1 := by
      unfold HashMap.delete
      rw [if_pos hex]
    have hdelBuckets : ((m.delete k).2).buckets
        = m.buckets.set (hashIdx m.size k) (removeFirstKey (m.bucketOf k) k) := by
      unfold HashMap.delete
      rw [if_pos hex]
    have hgetD : m.buckets.getD (hashIdx m.size k) [] = m.bucketOf k := rfl
    have hperm0 := flatten_set_perm m.buckets (hashIdx m.size k)
      (removeFirstKey (m.bucketOf k) k) hlt
    rw [hgetD] at hperm0
    rcases removeFirstKey_perm (m.bucketOf k) k hex with ⟨e, hek, hbperm⟩
    have hkey : List.Perm
        ((m.buckets.set (hashIdx m.size k) (removeFirstKey (m.bucketOf k) k)).flatten ++ [e])
        m.buckets.flatten := by
      have h1 : List.Perm
          ((m.buckets.set (hashIdx m.size k) (removeFirstKey (m.bucketOf k) k)).flatten
            ++ (e :: removeFirstKey (m.bucketOf k) k))
          (m.buckets.flatten ++ removeFirstKey (m.bucketOf k) k) := by
        refine List.Perm.trans ?_ hperm0
        exact List.Perm.append_left _ hbperm.symm
      have h2 : ((m.buckets.set (hashIdx m.size k) (removeFirstKey (m.bucketOf k) k)).flatten
            ++ [e]) ++ removeFirstKey (m.bucketOf k) k
          = (m.buckets.set (hashIdx m.size k) (removeFirstKey (m.bucketOf k) k)).flatten
            ++ (e :: removeFirstKey (m.bucketOf k) k) := by
        simp
      exact (List.perm_append_right_iff _).mp (by rw [h2]; exact h1)
    have hlenEq : ((m.buckets.set (hashIdx m.size k)
        (removeFirstKey (m.bucketOf k) k)).flatten).length + 1 = m.buckets.flatten.length := by
      have := hkey.length_eq
      simpa using this
    refine ⟨⟨?_, ?_, ?_, ?_, ?_⟩, ?_⟩
    · rw [hdelSize]
      exact hsz
    · rw [hdelBuckets, hdelSize]
      simpa using hlen
    · rw [hdelCount]
      unfold allEntriesList
      rw [hdelBuckets]
      have : m.count = m.buckets.flatten.length := hcnt
      omega
    · unfold allEntriesList
      rw [hdelBuckets]
      have hmapperm := hkey.map Entry.key
      simp only [List.map_append, List.map_cons, List.map_nil] at hmapperm
      have hnd2 := (hmapperm.nodup_iff).mpr hnd
      exact hnd2.of_append_left
    · intro j e' he'
      rw [hdelBuckets] at he'
      rw [hdelSize]
      by_cases hij : hashIdx m.size k = j
      · subst hij
        rw [getD_set_self _ _ _ _ hlt] at he'
        have hmem : e' ∈ m.bucketOf k := (removeFirstKey_sublist _ _).mem he'
        exact hgood (hashIdx m.size k) e' (by rw [hgetD]; exact hmem)
      · rw [getD_set_ne _ _ _ _ _ hij] at he'
        exact hgood j e' he'
    · rw [hdelCount, hdelSize]
      omega
  · have hdel : (m.delete k).2 = m := by
      unfold HashMap.delete
      rw [if_neg hex]
    rw [hdel]
    exact ⟨⟨hsz, hlen, hcnt, hnd, hgood⟩, hload⟩

/-! ### Reachable stores -/

/-- States of the associative store reachable from a freshly constructed
map by any sequence of `set` and `delete` calls. -/
inductive Reachable {α : Type} : HashMap α → Prop
  | init (s : Nat) (hs : 1 ≤ s) : Reachable (HashMap.init α s)
  | set (m : HashMap α) (k : String) (v : α) : Reachable m → Reachable (m.set k v)
  | del (m : HashMap α) (k : String) : Reachable m → Reachable ((m.delete k).2)

theorem reachable_wf {α : Type} (m : HashMap α) (h : Reachable m) : m.WF := by
  induction h with
  | init s hs => exact ⟨init_pre s hs, by simp [HashMap.init]⟩
  | set m k v _ ih => exact set_wf m k v ih
  | del m k _ ih => exact delete_wf m k ih

theorem lt_length_of_keyExists {α : Type} (m : HashMap α) (k : String)
    (h : m.keyExists k = true) : hashIdx m.size k < m.buckets.length := by
  by_contra hge
  have hnil : m.bucketOf k = [] := by
    unfold HashMap.bucketOf
    rw [List.getD_eq_getElem?_getD, List.getElem?_eq_none (Nat.le_of_not_lt hge)]
    rfl
  rw [HashMap.keyExists, hnil] at h
  simp [bucketHasKey] at h

theorem allEntriesList_init {α : Type} (s : Nat) :
    allEntriesList (HashMap.init α s) = [] := by
  unfold allEntriesList HashMap.init
  exact flatten_replicate_nil s

/-! ## Claim theorems about the associative store -/

/-- Claim C2: for every associative store state reachable by any sequence of
`set` calls (indeed by any sequence of `set` and `delete` calls), whenever a
`set` pushes the load factor `count / size` above 0.75, a resize runs whose
resulting bucket count is strictly greater than before and is prime, and
every key retrievable before the resize (in the post-insertion,
pre-resize state) is still retrievable afterwards with the same value. -/
theorem claim_C2_resize_invariant {α : Type} (m : HashMap α) (k : String) (v : α)
    (hreach : Reachable m)
    (htrig : 3 * (m.insertPhase k v).size < 4 * (m.insertPhase k v).count) :
    m.size < (m.set k v).size ∧
    Nat.Prime ((m.set k v).size) ∧
    ∀ (k' : String) (v' : α), (m.insertPhase k v).get k' = some v' →
      (m.set k v).get k' = some v' := by
  obtain ⟨hPre, hload⟩ := reachable_wf m hreach
  have hex' : m.keyExists k = false := by
    cases h : m.keyExists k
    · rfl
    · exfalso
      obtain ⟨_, hsz, hcnt, _⟩ := insertPhase_update m k v hPre h
      rw [hsz, hcnt] at htrig
      omega
  obtain ⟨hPre1, hsz, hcnt, hperm⟩ := insertPhase_fresh m k v hPre hex'
  have hfuel : m.count + 2 = (m.count + 1) + 1 := rfl
  have hsetEq : m.set k v
      = (allEntriesList (m.insertPhase k v)).foldl
          (fun acc e => setFuel (m.count + 1) acc e.key e.value)
          (HashMap.init α (nextPrime ((m.insertPhase k v).size * 2))) := by
    unfold HashMap.set
    rw [hfuel, setFuel_trigger _ _ _ _ hex' htrig]
  have hs2 : 2 ≤ nextPrime ((m.insertPhase k v).size * 2) := two_le_nextPrime _
  have hinitPre := @init_pre α (nextPrime ((m.insertPhase k v).size * 2)) (by omega)
  have hlenm1 : (allEntriesList (m.insertPhase k v)).length = m.count + 1 := by
    have := hPre1.2.2.1
    omega
  have hloadR : 4 * ((HashMap.init α (nextPrime ((m.insertPhase k v).size * 2))).count
      + (allEntriesList (m.insertPhase k v)).length)
      ≤ 3 * (HashMap.init α (nextPrime ((m.insertPhase k v).size * 2))).size := by
    show 4 * (0 + (allEntriesList (m.insertPhase k v)).length)
      ≤ 3 * nextPrime ((m.insertPhase k v).size * 2)
    rw [hlenm1, hsz]
    simpa using load_after_resize m.size m.count hPre.1 hload
  obtain ⟨hPreR, hsizeR, hcountR, hpermR⟩ :=
    rehashFold_spec (m.count + 1) (allEntriesList (m.insertPhase k v))
      (HashMap.init α (nextPrime ((m.insertPhase k v).size * 2))) hinitPre
      hPre1.2.2.2.1 (fun e _ => init_keyExists _ e.key) hloadR
  have hsizeFinal : (m.set k v).size = nextPrime (m.size * 2) := by
    rw [hsetEq, hsizeR]
    show nextPrime ((m.insertPhase k v).size * 2) = nextPrime (m.size * 2)
    rw [hsz]
  have hpermFinal : List.Perm (allEntriesList (m.set k v))
      (allEntriesList (m.insertPhase k v)) := by
    rw [hsetEq]
    have := hpermR
    rw [allEntriesList_init] at this
    simpa using this
  refine ⟨?_, ?_, ?_⟩
  · rw [hsizeFinal]
    exact size_lt_nextPrime_double m.size hPre.1
  · rw [hsizeFinal]
    exact nextPrime_prime _
  · intro k' v' hget
    have hmem1 := (get_iff_mem (m.insertPhase k v) k' v' hPre1).mp hget
    have hmemR : (⟨k', v'⟩ : Entry α) ∈ allEntriesList (m.set k v) :=
      hpermFinal.mem_iff.mpr hmem1
    have hPreSet : (m.set k v).Pre := by
      rw [hsetEq]
      exact hPreR
    exact (get_iff_mem (m.set k v) k' v' hPreSet).mpr hmemR

/-- Witness for C2 at a concrete input: a store of 2 buckets holding one
entry; inserting a second fresh key pushes the load factor to 1 and
triggers a resize to 5 prime buckets, preserving the stored entry. -/
theorem claim_C2_witness :
    (3 * (((HashMap.init Nat 2).set "a" 1).insertPhase "b" 2).size
      < 4 * (((HashMap.init Nat 2).set "a" 1).insertPhase "b" 2).count) ∧
    ((HashMap.init Nat 2).set "a" 1).size < (((HashMap.init Nat 2).set "a" 1).set "b" 2).size ∧
    Nat.Prime ((((HashMap.init Nat 2).set "a" 1).set "b" 2).size) ∧
    (((HashMap.init Nat 2).set "a" 1).set "b" 2).get "a" = some 1 := by
  have h := claim_C2_resize_invariant ((HashMap.init Nat 2).set "a" 1) "b" 2
    (Reachable.set _ _ _ (Reachable.init 2 (by norm_num))) (by decide)
  exact ⟨by decide, h.1, h.2.1, h.2.2 "a" 1 (by decide)⟩

/-- Claim C3: for every sequence of `set` and `delete` calls starting from
the empty store, the `count` field equals the number of entries yielded by
`all_entries()`, equivalently the sum of all bucket chain lengths. -/
theorem claim_C3_count_invariant {α : Type} (m : HashMap α) (hreach : Reachable m) :
    m.count = (allEntriesList m).length ∧
    m.count = (m.buckets.map List.length).sum := by
  obtain ⟨⟨_, _, hcnt, _, _⟩, _⟩ := reachable_wf m hreach
  refine ⟨hcnt, ?_⟩
  rw [hcnt]
  unfold allEntriesList
  exact List.length_flatten m.buckets

/-- Witness for C3 at a concrete input: after two inserts (one of which
resizes), an overwrite and a delete, `count` agrees with the number of
entries. -/
theorem claim_C3_witness :
    (((((HashMap.init Nat 2).set "a" 1).set "b" 2).set "a" 7).delete "b").2.count
      = (allEntriesList (((((HashMap.init Nat 2).set "a" 1).set "b" 2).set "a" 7).delete "b").2).length ∧
    (((((HashMap.init Nat 2).set "a" 1).set "b" 2).set "a" 7).delete "b").2.count
      = ((((((HashMap.init Nat 2).set "a" 1).set "b" 2).set "a" 7).delete "b").2.buckets.map List.length).sum :=
  claim_C3_count_invariant _
    (Reachable.del _ _ (Reachable.set _ _ _ (Reachable.set _ _ _
      (Reachable.set _ _ _ (Reachable.init 2 (by norm_num))))))

/-- Claim C10: for every store and every key already present in it,
`set(key, value)` replaces that entry's value in place and changes nothing
else: `count`, the bucket count, every other bucket, the keys of its own
bucket (hence the entry's position in its chain) are unchanged, lookups of
other keys are unchanged, and no resize is triggered. -/
theorem claim_C10_set_existing_key {α : Type} (m : HashMap α) (k : String) (v : α)
    (hex : m.keyExists k = true) :
    (m.set k v).size = m.size ∧
    (m.set k v).count = m.count ∧
    (m.set k v).buckets.length = m.buckets.length ∧
    (∀ j : Nat, j ≠ hashIdx m.size k →
      (m.set k v).buckets.getD j [] = m.buckets.getD j []) ∧
    ((m.set k v).bucketOf k).map Entry.key = (m.bucketOf k).map Entry.key ∧
    (m.set k v).get k = some v ∧
    (∀ k' : String, k' ≠ k → (m.set k v).get k' = m.get k') ∧
    (∀ n : Nat, ((m.set k v).bucketOf k)[n]? = (m.bucketOf k)[n]? ∨
      (((m.bucketOf k)[n]?).map Entry.key = some k ∧
        ((m.set k v).bucketOf k)[n]? = some ⟨k, v⟩)) := by
  have hlt : hashIdx m.size k < m.buckets.length := lt_length_of_keyExists m k hex
  have hbK : bucketHasKey (m.bucketOf k) k = true := hex
  have hsetEq : m.set k v = m.insertPhase k v := by
    unfold HashMap.set
    exact setFuel_of_keyExists _ _ _ _ hex
  have hsizeEq : (m.set k v).size = m.size := by
    rw [hsetEq]
    unfold HashMap.insertPhase
    rw [if_pos hbK]
  have hcountEq : (m.set k v).count = m.count := by
    rw [hsetEq]
    unfold HashMap.insertPhase
    rw [if_pos hbK]
  have hbucketsEq : (m.set k v).buckets
      = m.buckets.set (hashIdx m.size k) (setValueFirst (m.bucketOf k) k v) := by
    rw [hsetEq]
    unfold HashMap.insertPhase
    rw [if_pos hbK]
  have hbucketOfSelf : (m.set k v).bucketOf k = setValueFirst (m.bucketOf k) k v := by
    unfold HashMap.bucketOf
    rw [hsizeEq, hbucketsEq]
    exact getD_set_self _ _ _ _ hlt
  refine ⟨hsizeEq, hcountEq, ?_, ?_, ?_, ?_, ?_, ?_⟩
  · rw [hbucketsEq]
    simp
  · intro j hj
    rw [hbucketsEq]
    exact getD_set_ne _ _ _ _ _ (fun h => hj h.symm)
  · rw [hbucketOfSelf]
    exact setValueFirst_map_key _ _ _
  · rw [HashMap.get, hbucketOfSelf]
    exact bucketFind_setValueFirst_self _ _ _ hbK
  · intro k' hk'
    rw [HashMap.get, HashMap.get]
    unfold HashMap.bucketOf
    rw [hsizeEq, hbucketsEq]
    by_cases hik : hashIdx m.size k' = hashIdx m.size k
    · rw [hik, getD_set_self _ _ _ _ hlt]
      exact bucketFind_setValueFirst_ne _ _ _ _ hk'
    · rw [getD_set_ne _ _ _ _ _ (fun h => hik h.symm)]
  · intro n
    rw [hbucketOfSelf]
    exact setValueFirst_getElem? (m.bucketOf k) k v n

/-- Witness for C10 at a concrete input: overwriting the value of the
present key keeps size, count and the other lookups intact. -/
theorem claim_C10_witness :
    ((HashMap.init Nat 3).set "a" 1).keyExists "a" = true ∧
    ((((HashMap.init Nat 3).set "a" 1).set "b" 2).set "a" 9).size
      = (((HashMap.init Nat 3).set "a" 1).set "b" 2).size ∧
    ((((HashMap.init Nat 3).set "a" 1).set "b" 2).set "a" 9).count
      = (((HashMap.init Nat 3).set "a" 1).set "b" 2).count ∧
    ((((HashMap.init Nat 3).set "a" 1).set "b" 2).set "a" 9).get "a" = some 9 ∧
    ((((HashMap.init Nat 3).set "a" 1).set "b" 2).set "a" 9).get "b"
      = (((HashMap.init Nat 3).set "a" 1).set "b" 2).get "b" := by
  have h := claim_C10_set_existing_key (((HashMap.init Nat 3).set "a" 1).set "b" 2) "a" 9
    (by decide)
  exact ⟨by decide, h.1, h.2.1, h.2.2.2.2.2.1, h.2.2.2.2.2.2.1 "b" (by decide)⟩

/-! ### Products and the purchase operation (src/inventory.py) -/

/-- Embeds class `Product`: id, display name, unit price, stock quantity
and category label.  Prices are embedded as rationals, quantities as
integers. -/
structure Product where
  id : String
  name : String
  price : ℚ
  quantity : Int
  category : String
  deriving Repr, DecidableEq

/-- The four observable outcomes of `purchase` (three error messages and
the success path). -/
inductive PurchaseResult
  | notFound
  | invalidAmount
  | insufficientStock
  | success
  deriving Repr, DecidableEq

/-- In-place mutation of the value of the first entry carrying the given
key; this is how mutating the object returned by `get` (for instance
`product.quantity -= amount`) acts on the store. -/
def mapValueFirst {α : Type} : List (Entry α) → String → (α → α) → List (Entry α)
  | [], _, _ => []
  | e :: rest, k, f =>
    if e.key = k then ⟨e.key, f e.value⟩ :: rest else e :: mapValueFirst rest k f

/-- Mutating the value stored under a key in place. -/
def HashMap.mutateValue {α : Type} (m : HashMap α) (k : String) (f : α → α) : HashMap α :=
  { m with buckets := m.buckets.set (hashIdx m.size k) (mapValueFirst (m.bucketOf k) k f) }

/-- Embeds `purchase(product_id, amount)`: look the product up
(`_find_product`), reject a missing id, a non-positive amount
(`_validate_positive`), or insufficient stock, and otherwise decrement the
product's quantity in place. -/
def purchase (inv : HashMap Product) (pid : String) (amount : Int) :
    PurchaseResult × HashMap Product :=
  match inv.get pid with
  | none => (PurchaseResult.notFound, inv)
  | some p =>
    if amount ≤ 0 then (PurchaseResult.invalidAmount, inv)
    else if p.quantity < amount then (PurchaseResult.insufficientStock, inv)
    else (PurchaseResult.success,
      inv.mutateValue pid (fun q => { q with quantity := q.quantity - amount }))

theorem bucketFind_mapValueFirst_self {α : Type} (b : List (Entry α)) (k : String)
    (f : α → α) (p : α) (h : bucketFind b k = some p) :
    bucketFind (mapValueFirst b k f) k = some (f p) := by
  induction b with
  | nil => simp [bucketFind] at h
  | cons e rest ih =>
    by_cases hk : e.key = k
    · simp only [bucketFind, if_pos hk] at h
      injection h with h
      subst h
      simp [mapValueFirst, if_pos hk, bucketFind, hk]
    · simp only [bucketFind, if_neg hk] at h
      simp only [mapValueFirst, if_neg hk, bucketFind, if_neg hk]
      exact ih h

theorem bucketFind_mapValueFirst_ne {α : Type} (b : List (Entry α)) (k k' : String)
    (f : α → α) (h : k' ≠ k) :
    bucketFind (mapValueFirst b k f) k' = bucketFind b k' := by
  induction b with
  | nil => rfl
  | cons e rest ih =>
    by_cases hk : e.key = k
    · subst hk
      simp [mapValueFirst, bucketFind, if_neg (Ne.symm h)]
    · simp only [mapValueFirst, if_neg hk, bucketFind, ih]

theorem lt_length_of_get_some {α : Type} (m : HashMap α) (k : String) (p : α)
    (h : m.get k = some p) : hashIdx m.size k < m.buckets.length := by
  by_contra hge
  have hnil : m.bucketOf k = [] := by
    unfold HashMap.bucketOf
    rw [List.getD_eq_getElem?_getD, List.getElem?_eq_none (Nat.le_of_not_lt hge)]
    rfl
  rw [HashMap.get, hnil] at h
  simp [bucketFind] at h

theorem mutateValue_get_self {α : Type} (m : HashMap α) (k : String) (f : α → α)
    (p : α) (h : m.get k = some p) : (m.mutateValue k f).get k = some (f p) := by
  have hlt := lt_length_of_get_some m k p h
  have hb : (m.mutateValue k f).bucketOf k = mapValueFirst (m.bucketOf k) k f := by
    unfold HashMap.mutateValue HashMap.bucketOf
    exact getD_set_self _ _ _ _ hlt
  rw [HashMap.get, hb]
  exact bucketFind_mapValueFirst_self _ _ _ _ h

theorem mutateValue_size {α : Type} (m : HashMap α) (k : String) (f : α → α) :
    (m.mutateValue k f).size = m.size := rfl

theorem mutateValue_count {α : Type} (m : HashMap α) (k : String) (f : α → α) :
    (m.mutateValue k f).count = m.count := rfl

theorem mutateValue_buckets {α : Type} (m : HashMap α) (k : String) (f : α → α) :
    (m.mutateValue k f).buckets
      = m.buckets.set (hashIdx m.size k) (mapValueFirst (m.bucketOf k) k f) := rfl

theorem mutateValue_get_ne {α : Type} (m : HashMap α) (k k' : String) (f : α → α)
    (h : k' ≠ k) : (m.mutateValue k f).get k' = m.get k' := by
  rw [HashMap.get, HashMap.get]
  unfold HashMap.bucketOf
  rw [mutateValue_size, mutateValue_buckets]
  by_cases hik : hashIdx m.size k' = hashIdx m.size k
  · rw [hik]
    by_cases hlt : hashIdx m.size k < m.buckets.length
    · rw [getD_set_self _ _ _ _ hlt]
      exact bucketFind_mapValueFirst_ne _ _ _ _ h
    · rw [List.set_eq_of_length_le (Nat.le_of_not_lt hlt)]
  · rw [getD_set_ne _ _ _ _ _ (fun hh => hik hh.symm)]

/-- Claim C1: `purchase(id, amount)` succeeds if and only if a product with
that id exists, the amount is positive, and the product's quantity is at
least the amount; on success the quantity decreases by exactly the amount
and remains nonnegative while every other product is untouched; on any
failure (NotFound for a missing id, InvalidAmount for a non-positive
amount, InsufficientStock otherwise) the store is unchanged, so `purchase`
never drives a quantity below zero. -/
theorem purchase_of_get_none (inv : HashMap Product) (pid : String) (amount : Int)
    (hget : inv.get pid = none) :
    purchase inv pid amount = (PurchaseResult.notFound, inv) := by
  unfold purchase
  rw [hget]

theorem purchase_of_get_some (inv : HashMap Product) (pid : String) (amount : Int)
    (p0 : Product) (hget : inv.get pid = some p0) :
    purchase inv pid amount =
      if amount ≤ 0 then (PurchaseResult.invalidAmount, inv)
      else if p0.quantity < amount then (PurchaseResult.insufficientStock, inv)
      else (PurchaseResult.success,
        inv.mutateValue pid (fun q => { q with quantity := q.quantity - amount })) := by
  unfold purchase
  rw [hget]

/-- Claim C1: `purchase(id, amount)` succeeds if and only if a product with
that id exists, the amount is positive, and the product's quantity is at
least the amount; on success the quantity decreases by exactly the amount
and remains nonnegative while every other product is untouched; on any
failure (NotFound for a missing id, InvalidAmount for a non-positive
amount, InsufficientStock otherwise) the store is unchanged, so `purchase`
never drives a quantity below zero. -/
theorem claim_C1_purchase (inv : HashMap Product) (pid : String) (amount : Int) :
    ((purchase inv pid amount).1 = PurchaseResult.success
      ↔ ∃ p, inv.get pid = some p ∧ 0 < amount ∧ amount ≤ p.quantity) ∧
    (∀ p, inv.get pid = some p → 0 < amount → amount ≤ p.quantity →
      (purchase inv pid amount).2.get pid
          = some { p with quantity := p.quantity - amount } ∧
        0 ≤ p.quantity - amount ∧
        ∀ k' : String, k' ≠ pid → (purchase inv pid amount).2.get k' = inv.get k') ∧
    ((purchase inv pid amount).1 ≠ PurchaseResult.success →
      (purchase inv pid amount).2 = inv) ∧
    (inv.get pid = none → (purchase inv pid amount).1 = PurchaseResult.notFound) ∧
    (∀ p, inv.get pid = some p → amount ≤ 0 →
      (purchase inv pid amount).1 = PurchaseResult.invalidAmount) ∧
    (∀ p, inv.get pid = some p → 0 < amount → p.quantity < amount →
      (purchase inv pid amount).1 = PurchaseResult.insufficientStock) := by
  cases hget : inv.get pid with
  | none =>
    rw [purchase_of_get_none inv pid amount hget]
    refine ⟨by simp, ?_, fun _ => rfl, fun _ => rfl, ?_, ?_⟩
    · intro p hp
      exact absurd hp (by simp)
    · intro p hp
      exact absurd hp (by simp)
    · intro p hp
      exact absurd hp (by simp)
  | some p0 =>
    rw [purchase_of_get_some inv pid amount p0 hget]
    by_cases hamt : amount ≤ 0
    · rw [if_pos hamt]
      refine ⟨?_, ?_, fun _ => rfl, ?_, fun p _ _ => rfl, ?_⟩
      · constructor
        · intro h
          exact absurd h (by simp)
        · rintro ⟨p, hp, hpos, _⟩
          omega
      · intro p _ hpos
        exact absurd hpos (by omega)
      · intro h
        exact absurd h (by simp)
      · intro p _ hpos _
        exact absurd hpos (by omega)
    · by_cases hstock : p0.quantity < amount
      · rw [if_neg hamt, if_pos hstock]
        refine ⟨?_, ?_, fun _ => rfl, ?_, ?_, fun p _ _ _ => rfl⟩
        · constructor
          · intro h
            exact absurd h (by simp)
          · rintro ⟨p, hp, _, hq⟩
            injection hp with hp
            subst hp
            omega
        · intro p hp hpos hq
          injection hp with hp
          subst hp
          omega
        · intro h
          exact absurd h (by simp)
        · intro p _ hle
          exact absurd hle (by omega)
      · rw [if_neg hamt, if_neg hstock]
        refine ⟨?_, ?_, ?_, ?_, ?_, ?_⟩
        · exact ⟨fun _ => ⟨p0, rfl, by omega, by omega⟩, fun _ => rfl⟩
        · intro p hp hpos hq
          injection hp with hp
          subst hp
          refine ⟨mutateValue_get_self inv pid _ p0 hget, by omega, ?_⟩
          intro k' hk'
          exact mutateValue_get_ne inv pid k' _ hk'
        · intro h
          exact absurd rfl h
        · intro h
          exact absurd h (by simp)
        · intro p _ hle
          exact absurd hle (by omega)
        · intro p hp _ hlt
          injection hp with hp
          subst hp
          exact absurd hlt (by omega)

/-- Witness for C1 at a concrete input: buying 4 of a product stocked at 10
succeeds and leaves quantity 6. -/
theorem claim_C1_witness :
    (purchase ((HashMap.init Product 5).set "p1" ⟨"p1", "Milk", 3, 10, "Dairy"⟩) "p1" 4).1
      = PurchaseResult.success ∧
    (purchase ((HashMap.init Product 5).set "p1" ⟨"p1", "Milk", 3, 10, "Dairy"⟩) "p1" 4).2.get "p1"
      = some ⟨"p1", "Milk", 3, 6, "Dairy"⟩ := by
  have h := claim_C1_purchase
    ((HashMap.init Product 5).set "p1" ⟨"p1", "Milk", 3, 10, "Dairy"⟩) "p1" 4
  constructor
  · exact h.1.mpr ⟨⟨"p1", "Milk", 3, 10, "Dairy"⟩, by decide, by decide, by decide⟩
  · exact ((h.2.1 ⟨"p1", "Milk", 3, 10, "Dairy"⟩ (by decide) (by decide) (by decide)).1).trans
      (by decide)

/-! ### Warehouse delivery (src/simulate_shopping.py, process_delivery and
the identical block of src/gui.py, MiniMeijerApp._run_simulation) -/

/-- Embeds `CONFIG["delivery_restock_max"]` = 25: only products with 25 or
fewer units receive delivery stock. -/
def DELIVERY_RESTOCK_MAX : Int := 25

/-- A product eligible for delivery in the given category:
`e.value.category == category and e.value.quantity <= 25`. -/
def isDeliveryEligible (cat : String) (p : Product) : Bool :=
  p.category == cat && decide (p.quantity ≤ DELIVERY_RESTOCK_MAX)

/-- The per-product delivery amount: `per_product + (1 if i < remainder
else 0)` where `per_product = units // N` and `remainder = units % N`. -/
def deliveryAmount (units n i : Nat) : Nat :=
  units / n + (if i < units % n then 1 else 0)

/-- The delivery loop over the catalog in iteration order: the `j`-th
eligible product receives `deliveryAmount units n j` (added only when the
amount is positive, as in `if amount > 0`). -/
def deliverAux (units n : Nat) (cat : String) : Nat → List Product → List Product
  | _, [] => []
  | j, p :: rest =>
    if isDeliveryEligible cat p then
      (if 0 < deliveryAmount units n j
        then { p with quantity := p.quantity + (deliveryAmount units n j : Int) }
        else p) :: deliverAux units n cat (j + 1) rest
    else p :: deliverAux units n cat j rest

/-- Embeds one category round of `process_delivery`: find the eligible
products, and if there are any, split the category's unit allotment across
them (skipping the category entirely when no product is eligible). -/
def processDeliveryCategory (ps : List Product) (cat : String) (units : Nat) : List Product :=
  if (ps.filter (isDeliveryEligible cat)).length = 0 then ps
  else deliverAux units ((ps.filter (isDeliveryEligible cat)).length) cat 0 ps

theorem deliverAux_upd_eq (p : Product) (a : Nat) :
    (if 0 < a then { p with quantity := p.quantity + (a : Int) } else p)
      = { p with quantity := p.quantity + (a : Int) } := by
  by_cases h : 0 < a
  · rw [if_pos h]
  · rw [if_neg h]
    have ha : a = 0 := by omega
    subst ha
    simp

theorem sum_range_amount_nat (units n : Nat) (m : Nat) :
    ((List.range m).map (deliveryAmount units n)).sum
      = m * (units / n) + min m (units % n) := by
  induction m with
  | zero => simp
  | succ m ih =>
    rw [List.range_succ, List.map_append, List.sum_append]
    simp only [ih, List.map_cons, List.map_nil, List.sum_cons, List.sum_nil, deliveryAmount]
    rw [Nat.succ_mul]
    by_cases h : m < units % n
    · rw [if_pos h]
      omega
    · rw [if_neg h]
      omega

theorem sum_range_amount_int (units n : Nat) (h : 1 ≤ n) :
    ((List.range n).map (fun t => (deliveryAmount units n t : Int))).sum = (units : Int) := by
  have hmap : (List.range n).map (fun t => (deliveryAmount units n t : Int))
      = ((List.range n).map (deliveryAmount units n)).map (fun x : Nat => (x : Int)) := by
    rw [List.map_map]
    rfl
  rw [hmap, ← Nat.cast_list_sum, sum_range_amount_nat]
  have hmod : units % n < n := Nat.mod_lt units h
  have hmin : min n (units % n) = units % n := by omega
  rw [hmin]
  have := Nat.div_add_mod units n
  omega

theorem sum_range_offset (f : Nat → Int) :
    ∀ (m j : Nat), ((List.range (m + 1)).map (fun t => f (j + t))).sum
      = f j + ((List.range m).map (fun t => f (j + 1 + t))).sum := by
  intro m
  induction m with
  | zero =>
    intro j
    simp [List.range_succ]
  | succ m ih =>
    intro j
    rw [List.range_succ, List.map_append, List.sum_append, ih j]
    conv_rhs => rw [List.range_succ]
    rw [List.map_append, List.sum_append]
    simp only [List.map_cons, List.map_nil, List.sum_cons, List.sum_nil]
    have : j + (m + 1) = j + 1 + m := by omega
    rw [this]
    ring

theorem deliverAux_spec (units n : Nat) (cat : String) :
    ∀ (ps : List Product) (j : Nat),
      (deliverAux units n cat j ps).length = ps.length ∧
      (∀ (i : Nat) (p : Product), ps[i]? = some p →
        (deliverAux units n cat j ps)[i]?
          = some (if isDeliveryEligible cat p then
              { p with quantity := p.quantity
                  + (deliveryAmount units n (j + ((ps.take i).filter (isDeliveryEligible cat)).length) : Int) }
            else p)) ∧
      ((deliverAux units n cat j ps).map Product.quantity).sum
        = (ps.map Product.quantity).sum
          + ((List.range ((ps.filter (isDeliveryEligible cat)).length)).map
              (fun t => (deliveryAmount units n (j + t) : Int))).sum := by
  intro ps
  induction ps with
  | nil =>
    intro j
    refine ⟨rfl, ?_, by simp [deliverAux]⟩
    intro i p hp
    simp at hp
  | cons p0 rest ih =>
    intro j
    by_cases helig : isDeliveryEligible cat p0 = true
    · have hstep : deliverAux units n cat j (p0 :: rest)
          = if isDeliveryEligible cat p0 then
              (if 0 < deliveryAmount units n j
                then { p0 with quantity := p0.quantity + (deliveryAmount units n j : Int) }
                else p0) :: deliverAux units n cat (j + 1) rest
            else p0 :: deliverAux units n cat j rest := rfl
      have hred : deliverAux units n cat j (p0 :: rest)
          = { p0 with quantity := p0.quantity + (deliveryAmount units n j : Int) }
            :: deliverAux units n cat (j + 1) rest := by
        rw [hstep, if_pos helig, deliverAux_upd_eq]
      obtain ⟨ihlen, ihpos, ihsum⟩ := ih (j + 1)
      refine ⟨?_, ?_, ?_⟩
      · rw [hred]
        simp [ihlen]
      · intro i p hp
        cases i with
        | zero =>
          simp only [List.getElem?_cons_zero] at hp
          injection hp with hp
          subst hp
          rw [hred]
          simp [helig]
        | succ i =>
          simp only [List.getElem?_cons_succ] at hp
          rw [hred]
          simp only [List.getElem?_cons_succ]
          rw [ihpos i p hp]
          have hcount : ((( p0 :: rest).take (i + 1)).filter (isDeliveryEligible cat)).length
              = ((rest.take i).filter (isDeliveryEligible cat)).length + 1 := by
            simp [List.take_succ_cons, List.filter_cons, helig]
          rw [hcount]
          have harg : j + (((rest.take i).filter (isDeliveryEligible cat)).length + 1)
              = j + 1 + ((rest.take i).filter (isDeliveryEligible cat)).length := by
            omega
          rw [harg]
      · rw [hred]
        simp only [List.map_cons, List.sum_cons, ihsum]
        have hflt : ((p0 :: rest).filter (isDeliveryEligible cat)).length
            = (rest.filter (isDeliveryEligible cat)).length + 1 := by
          simp [List.filter_cons, helig]
        rw [hflt, sum_range_offset (fun x => (deliveryAmount units n x : Int))
          ((rest.filter (isDeliveryEligible cat)).length) j]
        ring
    · have helig' : isDeliveryEligible cat p0 = false := by
        cases h : isDeliveryEligible cat p0
        · rfl
        · exact absurd h helig
      have hstep : deliverAux units n cat j (p0 :: rest)
          = if isDeliveryEligible cat p0 then
              (if 0 < deliveryAmount units n j
                then { p0 with quantity := p0.quantity + (deliveryAmount units n j : Int) }
                else p0) :: deliverAux units n cat (j + 1) rest
            else p0 :: deliverAux units n cat j rest := rfl
      have hred : deliverAux units n cat j (p0 :: rest)
          = p0 :: deliverAux units n cat j rest := by
        rw [hstep, if_neg (by simp [helig'])]
      obtain ⟨ihlen, ihpos, ihsum⟩ := ih j
      refine ⟨?_, ?_, ?_⟩
      · rw [hred]
        simp [ihlen]
      · intro i p hp
        cases i with
        | zero =>
          simp only [List.getElem?_cons_zero] at hp
          injection hp with hp
          subst hp
          rw [hred]
          simp [helig']
        | succ i =>
          simp only [List.getElem?_cons_succ] at hp
          rw [hred]
          simp only [List.getElem?_cons_succ]
          rw [ihpos i p hp]
          have hcount : (((p0 :: rest).take (i + 1)).filter (isDeliveryEligible cat)).length
              = ((rest.take i).filter (isDeliveryEligible cat)).length := by
            simp [List.take_succ_cons, List.filter_cons, helig']
          rw [hcount]
      · rw [hred]
        simp only [List.map_cons, List.sum_cons, ihsum]
        have hflt : ((p0 :: rest).filter (isDeliveryEligible cat)).length
            = (rest.filter (isDeliveryEligible cat)).length := by
          simp [List.filter_cons, helig']
        rw [hflt]
        ring

/-- Claim C4: for a warehouse category with `units` allotted units and at
least one eligible product (quantity at or below the delivery ceiling), the
delivery increments exactly the eligible products, the `j`-th eligible
product in catalog iteration order receiving `units / N` plus one extra
unit when `j < units % N`; the increments sum to exactly `units` and every
ineligible product is untouched. -/
theorem claim_C4_delivery_conservation (ps : List Product) (cat : String) (units : Nat)
    (hN : 1 ≤ (ps.filter (isDeliveryEligible cat)).length) :
    ((processDeliveryCategory ps cat units).map Product.quantity).sum
        = (ps.map Product.quantity).sum + (units : Int) ∧
    (processDeliveryCategory ps cat units).length = ps.length ∧
    ∀ (i : Nat) (p : Product), ps[i]? = some p →
      (processDeliveryCategory ps cat units)[i]?
        = some (if isDeliveryEligible cat p then
            { p with quantity := p.quantity
                + (deliveryAmount units ((ps.filter (isDeliveryEligible cat)).length)
                    (((ps.take i).filter (isDeliveryEligible cat)).length) : Int) }
          else p) := by
  have hred : processDeliveryCategory ps cat units
      = deliverAux units ((ps.filter (isDeliveryEligible cat)).length) cat 0 ps := by
    unfold processDeliveryCategory
    rw [if_neg (by omega)]
  obtain ⟨hlen, hpos, hsum⟩ :=
    deliverAux_spec units ((ps.filter (isDeliveryEligible cat)).length) cat ps 0
  refine ⟨?_, by rw [hred]; exact hlen, ?_⟩
  · rw [hred, hsum]
    have := sum_range_amount_int units ((ps.filter (isDeliveryEligible cat)).length) hN
    simpa using this
  · intro i p hp
    rw [hred, hpos i p hp]
    simp

/-- Witness for C4 at the spec's own scenario: 50 units split across 3
eligible products give 17, 17 and 16 units, summing to exactly 50. -/
theorem claim_C4_witness :
    1 ≤ (([⟨"a", "A", 1, 10, "Dairy"⟩, ⟨"b", "B", 1, 5, "Dairy"⟩,
        ⟨"c", "C", 1, 0, "Dairy"⟩] : List Product).filter
          (isDeliveryEligible "Dairy")).length ∧
    ((processDeliveryCategory [⟨"a", "A", 1, 10, "Dairy"⟩, ⟨"b", "B", 1, 5, "Dairy"⟩,
        ⟨"c", "C", 1, 0, "Dairy"⟩] "Dairy" 50).map Product.quantity).sum = 65 ∧
    (processDeliveryCategory [⟨"a", "A", 1, 10, "Dairy"⟩, ⟨"b", "B", 1, 5, "Dairy"⟩,
        ⟨"c", "C", 1, 0, "Dairy"⟩] "Dairy" 50).map Product.quantity = [27, 22, 16] := by
  have h := claim_C4_delivery_conservation
    [⟨"a", "A", 1, 10, "Dairy"⟩, ⟨"b", "B", 1, 5, "Dairy"⟩, ⟨"c", "C", 1, 0, "Dairy"⟩]
    "Dairy" 50 (by decide)
  exact ⟨by decide, h.1.trans (by decide), by decide⟩

/-! ### Friday clearance-sale suggestions (src/simulate_shopping.py,
friday_sale_suggestions) -/

/-- Embeds `HIGH_STOCK_THRESHOLD = 50`. -/
def HIGH_STOCK_THRESHOLD : Int := 50

/-- Embeds `SALE_DISCOUNT = 0.50`. -/
def SALE_DISCOUNT : ℚ := 1 / 2

/-- Idealises Python's `round(x, 2)`: rounding to the nearest cent. -/
def round2 (q : ℚ) : ℚ := (round (q * 100) : ℚ) / 100

/-- Embeds `friday_sale_suggestions()`: walk `inventory.all_entries()` and
collect every product with `quantity >= HIGH_STOCK_THRESHOLD` paired with
`round(price * (1 - SALE_DISCOUNT), 2)`. -/
def fridaySaleSuggestions : List Product → List (Product × ℚ)
  | [] => []
  | p :: rest =>
    if HIGH_STOCK_THRESHOLD ≤ p.quantity then
      (p, round2 (p.price * (1 - SALE_DISCOUNT))) :: fridaySaleSuggestions rest
    else fridaySaleSuggestions rest

/-- Counterexample to C5 as stated: with six products at or above the
high-stock threshold, `friday_sale_suggestions` returns all six (no
truncation to the top 5), and in catalog iteration order (here ascending
quantity, not descending). -/
theorem claim_C5_counterexample :
    ¬ ((fridaySaleSuggestions [⟨"a", "A", 4, 50, "X"⟩, ⟨"b", "B", 4, 51, "X"⟩,
        ⟨"c", "C", 4, 52, "X"⟩, ⟨"d", "D", 4, 53, "X"⟩, ⟨"e", "E", 4, 54, "X"⟩,
        ⟨"f", "F", 4, 55, "X"⟩]).length ≤ 5) ∧
    (fridaySaleSuggestions [⟨"a", "A", 4, 50, "X"⟩, ⟨"b", "B", 4, 51, "X"⟩,
        ⟨"c", "C", 4, 52, "X"⟩, ⟨"d", "D", 4, 53, "X"⟩, ⟨"e", "E", 4, 54, "X"⟩,
        ⟨"f", "F", 4, 55, "X"⟩]).map (fun s => s.1.quantity)
      = [50, 51, 52, 53, 54, 55] := by
  constructor
  · decide
  · decide

/-- Claim C5 (amended): the clearance-sale proposal list consists of
exactly the products whose quantity is at or above the high-stock
threshold, in catalog iteration order, each paired with the discounted
price `round(price × (1 − discount fraction), 2)`; the code neither ranks
by quantity nor truncates to the top 5. -/
theorem claim_C5_sale_suggestions (ps : List Product) :
    fridaySaleSuggestions ps
      = (ps.filter (fun p => decide (HIGH_STOCK_THRESHOLD ≤ p.quantity))).map
          (fun p => (p, round2 (p.price * (1 - SALE_DISCOUNT)))) := by
  induction ps with
  | nil => rfl
  | cons p rest ih =>
    by_cases h : HIGH_STOCK_THRESHOLD ≤ p.quantity
    · simp [fridaySaleSuggestions, List.filter_cons, h, ih]
    · simp [fridaySaleSuggestions, List.filter_cons, h, ih]

/-! ### Overnight restock (src/simulate_shopping.py simulate, and
src/gui.py _run_simulation) -/

/-- Embeds `CONFIG["low_stock_threshold"] = 10`. -/
def LOW_STOCK_THRESHOLD : Int := 10

/-- Embeds `CONFIG["restock_target"] = 50`. -/
def RESTOCK_TARGET : Int := 50

/-- Embeds the end-of-day restock loop: every product in
`get_low_stock()` (quantity at or below the threshold) has
`restock_amount = 50 - quantity` added when that amount is positive. -/
def overnightRestock (ps : List Product) : List Product :=
  ps.map (fun p =>
    if p.quantity ≤ LOW_STOCK_THRESHOLD then
      (if 0 < RESTOCK_TARGET - p.quantity
        then { p with quantity := p.quantity + (RESTOCK_TARGET - p.quantity) }
        else p)
    else p)

/-- Claim C9: the overnight restock sets every product whose quantity was
at or below the low-stock threshold (10) to exactly the restock target
(50) and leaves every other product unchanged, so afterwards (at the start
of the next day) no product has quantity at or below the threshold. -/
theorem claim_C9_overnight_restock (ps : List Product) :
    (∀ (i : Nat) (p : Product), ps[i]? = some p →
      (overnightRestock ps)[i]?
        = some (if p.quantity ≤ LOW_STOCK_THRESHOLD
            then { p with quantity := RESTOCK_TARGET } else p)) ∧
    ∀ q ∈ overnightRestock ps, LOW_STOCK_THRESHOLD < q.quantity := by
  constructor
  · intro i p hp
    unfold overnightRestock
    rw [List.getElem?_map, hp]
    simp only [Option.map_some']
    congr 1
    by_cases h : p.quantity ≤ LOW_STOCK_THRESHOLD
    · rw [if_pos h, if_pos h, if_pos (by unfold LOW_STOCK_THRESHOLD at h; unfold RESTOCK_TARGET; omega)]
      have : p.quantity + (RESTOCK_TARGET - p.quantity) = RESTOCK_TARGET := by ring
      rw [this]
    · rw [if_neg h, if_neg h]
  · intro q hq
    unfold overnightRestock at hq
    rcases List.mem_map.mp hq with ⟨p, _, hfp⟩
    by_cases h : p.quantity ≤ LOW_STOCK_THRESHOLD
    · rw [if_pos h, if_pos (by unfold LOW_STOCK_THRESHOLD at h; unfold RESTOCK_TARGET; omega)] at hfp
      subst hfp
      show LOW_STOCK_THRESHOLD < p.quantity + (RESTOCK_TARGET - p.quantity)
      unfold RESTOCK_TARGET LOW_STOCK_THRESHOLD
      omega
    · rw [if_neg h] at hfp
      subst hfp
      unfold LOW_STOCK_THRESHOLD at h ⊢
      omega

/-- Witness for C9 at a concrete input: a product at 3 units is restocked
to exactly 50, a product at 40 units is untouched, and no product is left
at or below the threshold. -/
theorem claim_C9_witness :
    (overnightRestock [⟨"a", "A", 2, 3, "X"⟩, ⟨"b", "B", 2, 40, "X"⟩])[0]?
        = some ⟨"a", "A", 2, 50, "X"⟩ ∧
    (overnightRestock [⟨"a", "A", 2, 3, "X"⟩, ⟨"b", "B", 2, 40, "X"⟩])[1]?
        = some ⟨"b", "B", 2, 40, "X"⟩ ∧
    ∀ q ∈ overnightRestock [⟨"a", "A", 2, 3, "X"⟩, ⟨"b", "B", 2, 40, "X"⟩],
      LOW_STOCK_THRESHOLD < q.quantity := by
  have h := claim_C9_overnight_restock [⟨"a", "A", 2, 3, "X"⟩, ⟨"b", "B", 2, 40, "X"⟩]
  refine ⟨?_, ?_, h.2⟩
  · exact (h.1 0 ⟨"a", "A", 2, 3, "X"⟩ (by decide)).trans (by decide)
  · exact (h.1 1 ⟨"b", "B", 2, 40, "X"⟩ (by decide)).trans (by decide)

/-! ### Alcohol price surge (src/gui.py, MiniMeijerApp._run_simulation:
the surge proposal and approval block, and the day-end price revert) -/

/-- The surged price of one product: `round(p.price * (1 + surge_rate), 2)`. -/
def surgedPrice (rate : ℚ) (p : Product) : ℚ :=
  round2 (p.price * (1 + rate))

/-- Embeds the approved-surge mutation: every product of category
"Alcohol" (exactly the products proposed in `alcohol_items`) gets its
price replaced by the surged price. -/
def applySurge (ps : List Product) (rate : ℚ) : List Product :=
  ps.map (fun p =>
    if p.category == "Alcohol" then { p with price := surgedPrice rate p } else p)

/-- Embeds `alcohol_originals`: the pre-surge price of every surged
product, keyed by product id. -/
def surgeOriginals (ps : List Product) : List (String × ℚ) :=
  (ps.filter (fun p => p.category == "Alcohol")).map (fun p => (p.id, p.price))

/-- Embeds the whole surge phase: build the proposal from the current
catalog; if there are no alcohol items nothing happens; otherwise the
approval decision either applies the surge (recording the originals) or
leaves everything unchanged.  Returns the catalog and `alcohol_originals`. -/
def surgePhase (ps : List Product) (rate : ℚ) (approved : Bool) :
    List Product × List (String × ℚ) :=
  if (ps.filter (fun p => p.category == "Alcohol")).isEmpty then (ps, [])
  else if approved then (applySurge ps rate, surgeOriginals ps)
  else (ps, [])

/-- Embeds the day-end revert: `if alcohol_originals:` walk the catalog and
reset the price of every product whose id was recorded. -/
def restorePhase (ps : List Product) (originals : List (String × ℚ)) : List Product :=
  if originals.isEmpty then ps
  else ps.map (fun p =>
    match originals.lookup p.id with
    | some pr => { p with price := pr }
    | none => p)

theorem lookup_surgeOriginals_not_mem (ps : List Product) (x : String)
    (hx : x ∉ ps.map Product.id) : (surgeOriginals ps).lookup x = none := by
  induction ps with
  | nil => rfl
  | cons p rest ih =>
    simp only [List.map_cons, List.mem_cons, not_or] at hx
    by_cases halc : (p.category == "Alcohol") = true
    · have hred : surgeOriginals (p :: rest) = (p.id, p.price) :: surgeOriginals rest := by
        unfold surgeOriginals
        rw [List.filter_cons, if_pos halc]
        rfl
      rw [hred]
      simp only [List.lookup]
      have hbeq : (x == p.id) = false := by simpa using hx.1
      rw [hbeq]
      exact ih hx.2
    · have hred : surgeOriginals (p :: rest) = surgeOriginals rest := by
        unfold surgeOriginals
        rw [List.filter_cons, if_neg halc]
      rw [hred]
      exact ih hx.2

theorem lookup_surgeOriginals_of_mem (ps : List Product) (p : Product)
    (hmem : p ∈ ps) (halc : (p.category == "Alcohol") = true)
    (hnd : (ps.map Product.id).Nodup) :
    (surgeOriginals ps).lookup p.id = some p.price := by
  induction ps with
  | nil => simp at hmem
  | cons p0 rest ih =>
    simp only [List.map_cons, List.nodup_cons] at hnd
    rcases List.mem_cons.mp hmem with h | h
    · subst h
      have hred : surgeOriginals (p :: rest) = (p.id, p.price) :: surgeOriginals rest := by
        unfold surgeOriginals
        rw [List.filter_cons, if_pos halc]
        rfl
      rw [hred]
      simp [List.lookup]
    · have hne : p.id ≠ p0.id := by
        intro hh
        exact hnd.1 (hh ▸ List.mem_map_of_mem Product.id h)
      by_cases halc0 : (p0.category == "Alcohol") = true
      · have hred : surgeOriginals (p0 :: rest) = (p0.id, p0.price) :: surgeOriginals rest := by
          unfold surgeOriginals
          rw [List.filter_cons, if_pos halc0]
          rfl
        rw [hred]
        simp only [List.lookup]
        have hbeq : (p.id == p0.id) = false := by simpa using hne
        rw [hbeq]
        exact ih h hnd.2
      · have hred : surgeOriginals (p0 :: rest) = surgeOriginals rest := by
          unfold surgeOriginals
          rw [List.filter_cons, if_neg halc0]
        rw [hred]
        exact ih h hnd.2

theorem lookup_surgeOriginals_not_alcohol (ps : List Product) (p : Product)
    (hmem : p ∈ ps) (halc : (p.category == "Alcohol") = false)
    (hnd : (ps.map Product.id).Nodup) :
    (surgeOriginals ps).lookup p.id = none := by
  induction ps with
  | nil => rfl
  | cons p0 rest ih =>
    simp only [List.map_cons, List.nodup_cons] at hnd
    rcases List.mem_cons.mp hmem with h | h
    · subst h
      have hred : surgeOriginals (p :: rest) = surgeOriginals rest := by
        unfold surgeOriginals
        rw [List.filter_cons, if_neg (by simp [halc])]
      rw [hred]
      exact lookup_surgeOriginals_not_mem rest p.id hnd.1
    · have hne : p.id ≠ p0.id := by
        intro hh
        exact hnd.1 (hh ▸ List.mem_map_of_mem Product.id h)
      by_cases halc0 : (p0.category == "Alcohol") = true
      · have hred : surgeOriginals (p0 :: rest) = (p0.id, p0.price) :: surgeOriginals rest := by
          unfold surgeOriginals
          rw [List.filter_cons, if_pos halc0]
          rfl
        rw [hred]
        simp only [List.lookup]
        have hbeq : (p.id == p0.id) = false := by simpa using hne
        rw [hbeq]
        exact ih h hnd.2
      · have hred : surgeOriginals (p0 :: rest) = surgeOriginals rest := by
          unfold surgeOriginals
          rw [List.filter_cons, if_neg halc0]
        rw [hred]
        exact ih h hnd.2

theorem surgeOriginals_isEmpty_false (ps : List Product)
    (hne : (ps.filter (fun p => p.category == "Alcohol")).isEmpty = false) :
    (surgeOriginals ps).isEmpty = false := by
  unfold surgeOriginals
  cases hf : ps.filter (fun p => p.category == "Alcohol") with
  | nil => rw [hf] at hne; simp at hne
  | cons a l => rfl

/-- Claim C7: on a surge day, if the proposal is approved every
alcohol-category product's price is multiplied by (1 + surge rate)
(rounded to the cent) for that day, and the day-end revert restores every
price verbatim to its pre-surge value; if declined, prices are never
changed.  So in every case — whatever sales happen in between, provided
they change only quantities (ids and prices preserved pointwise) — each
product's price at day end equals its price before the surge phase. -/
theorem claim_C7_surge_day_prices (ps mid : List Product) (rate : ℚ) (approved : Bool)
    (hids : (ps.map Product.id).Nodup)
    (hmid : ∀ i : Nat,
      (mid[i]?).map Product.id = (((surgePhase ps rate approved).1)[i]?).map Product.id ∧
      (mid[i]?).map Product.price
        = (((surgePhase ps rate approved).1)[i]?).map Product.price) :
    (∀ i : Nat, ((restorePhase mid (surgePhase ps rate approved).2)[i]?).map Product.price
        = (ps[i]?).map Product.price) ∧
    (approved = false → surgePhase ps rate approved = (ps, [])) ∧
    (approved = true → ∀ (i : Nat) (p : Product), ps[i]? = some p →
      p.category = "Alcohol" →
      ((surgePhase ps rate approved).1)[i]?
        = some { p with price := round2 (p.price * (1 + rate)) }) := by
  by_cases hemp : (ps.filter (fun p => p.category == "Alcohol")).isEmpty = true
  · have hs : surgePhase ps rate approved = (ps, []) := by
      unfold surgePhase
      rw [if_pos hemp]
    rw [hs] at hmid
    refine ⟨?_, fun _ => hs, ?_⟩
    · intro i
      have hrestore : restorePhase mid (ps, ([] : List (String × ℚ))).2 = mid := by
        unfold restorePhase
        rfl
      rw [hs, hrestore]
      exact (hmid i).2
    · intro _ i p hp hcat
      exfalso
      have hmem : p ∈ ps := List.getElem?_mem hp
      have : p ∈ ps.filter (fun p => p.category == "Alcohol") :=
        List.mem_filter.mpr ⟨hmem, by simp [hcat]⟩
      rw [List.isEmpty_iff.mp hemp] at this
      simp at this
  · have hemp' : (ps.filter (fun p => p.category == "Alcohol")).isEmpty = false := by
      cases h : (ps.filter (fun p => p.category == "Alcohol")).isEmpty
      · rfl
      · exact absurd h hemp
    cases approved with
    | false =>
      have hs : surgePhase ps rate false = (ps, []) := by
        unfold surgePhase
        rw [if_neg (by simp [hemp']), if_neg (by simp)]
      rw [hs] at hmid
      refine ⟨?_, fun _ => hs, ?_⟩
      · intro i
        have hrestore : restorePhase mid (ps, ([] : List (String × ℚ))).2 = mid := by
          unfold restorePhase
          rfl
        rw [hs, hrestore]
        exact (hmid i).2
      · intro hcon
        exact absurd hcon (by simp)
    | true =>
      have hs : surgePhase ps rate true = (applySurge ps rate, surgeOriginals ps) := by
        unfold surgePhase
        rw [if_neg (by simp [hemp']), if_pos rfl]
      rw [hs] at hmid
      have hOrigNe : (surgeOriginals ps).isEmpty = false := surgeOriginals_isEmpty_false ps hemp'
      have hrestore : restorePhase mid (surgeOriginals ps)
          = mid.map (fun p =>
              match (surgeOriginals ps).lookup p.id with
              | some pr => { p with price := pr }
              | none => p) := by
        unfold restorePhase
        rw [if_neg (by simp [hOrigNe])]
      refine ⟨?_, ?_, ?_⟩
      · intro i
        rw [hs]
        show ((restorePhase mid (surgeOriginals ps))[i]?).map Product.price
          = (ps[i]?).map Product.price
        rw [hrestore, List.getElem?_map]
        cases hpi : ps[i]? with
        | none =>
          have hsome : (applySurge ps rate)[i]? = none := by
            unfold applySurge
            rw [List.getElem?_map, hpi]
            rfl
          have hmid1 := (hmid i).1
          rw [hsome] at hmid1
          have hmnone : mid[i]? = none := by
            cases hm : mid[i]?
            · rfl
            · rw [hm] at hmid1; simp at hmid1
          rw [hmnone]
          rfl
        | some p =>
          have hmem : p ∈ ps := List.getElem?_mem hpi
          have hfp : (applySurge ps rate)[i]?
              = some (if p.category == "Alcohol"
                  then { p with price := surgedPrice rate p } else p) := by
            unfold applySurge
            rw [List.getElem?_map, hpi]
            rfl
          have hmid1 := (hmid i).1
          have hmid2 := (hmid i).2
          rw [hfp] at hmid1 hmid2
          rcases Option.map_eq_some'.mp hmid1 with ⟨q, hq, hqid⟩
          rw [hq] at hmid2
          simp only [Option.map_some'] at hmid2
          injection hmid2 with hqprice
          rw [hq]
          simp only [Option.map_some']
          by_cases halc : (p.category == "Alcohol") = true
          · have hqid' : q.id = p.id := by
              rw [if_pos halc] at hqid
              simpa using hqid
            have hlook := lookup_surgeOriginals_of_mem ps p hmem halc hids
            show some (Product.price (match (surgeOriginals ps).lookup q.id with
              | some pr => { q with price := pr }
              | none => q)) = some p.price
            rw [hqid', hlook]
          · have halc' : (p.category == "Alcohol") = false := by
              cases h : (p.category == "Alcohol")
              · rfl
              · exact absurd h halc
            have hqid' : q.id = p.id := by
              rw [if_neg (by simp [halc'])] at hqid
              simpa using hqid
            have hqprice' : q.price = p.price := by
              rw [if_neg (by simp [halc'])] at hqprice
              simpa using hqprice
            have hlook := lookup_surgeOriginals_not_alcohol ps p hmem halc' hids
            show some (Product.price (match (surgeOriginals ps).lookup q.id with
              | some pr => { q with price := pr }
              | none => q)) = some p.price
            rw [hqid', hlook, hqprice']
      · intro hcon
        exact absurd hcon (by simp)
      · intro _ i p hpi hcat
        rw [hs]
        show (applySurge ps rate)[i]? = _
        unfold applySurge
        rw [List.getElem?_map, hpi]
        simp only [Option.map_some']
        rw [if_pos (by simp [hcat])]
        rfl

/-- Witness for C7 at a concrete input: a 20% approved surge on a
two-product catalog; the day-end revert brings the beer price back to 10
and leaves the milk price at 3, its pre-surge value. -/
theorem claim_C7_witness :
    ((restorePhase
        (surgePhase [⟨"a1", "Beer", 10, 20, "Alcohol"⟩, ⟨"m1", "Milk", 3, 10, "Dairy"⟩]
          (1 / 5) true).1
        (surgePhase [⟨"a1", "Beer", 10, 20, "Alcohol"⟩, ⟨"m1", "Milk", 3, 10, "Dairy"⟩]
          (1 / 5) true).2)[0]?).map Product.price = some 10 ∧
    ((restorePhase
        (surgePhase [⟨"a1", "Beer", 10, 20, "Alcohol"⟩, ⟨"m1", "Milk", 3, 10, "Dairy"⟩]
          (1 / 5) true).1
        (surgePhase [⟨"a1", "Beer", 10, 20, "Alcohol"⟩, ⟨"m1", "Milk", 3, 10, "Dairy"⟩]
          (1 / 5) true).2)[1]?).map Product.price = some 3 := by
  have h := claim_C7_surge_day_prices
    [⟨"a1", "Beer", 10, 20, "Alcohol"⟩, ⟨"m1", "Milk", 3, 10, "Dairy"⟩]
    ((surgePhase [⟨"a1", "Beer", 10, 20, "Alcohol"⟩, ⟨"m1", "Milk", 3, 10, "Dairy"⟩]
      (1 / 5) true).1)
    (1 / 5) true (by decide) (fun i => ⟨rfl, rfl⟩)
  exact ⟨(h.1 0).trans rfl, (h.1 1).trans rfl⟩

/-! ### Cart building (src/simulate_shopping.py, pick_products_by_preference) -/

/-- A shopper profile's category weight with default 3:
`cat_weights.get(p.category, 3)`. -/
def profileWeight (cw : List (String × Nat)) (cat : String) : Nat :=
  (cw.lookup cat).getD 3

/-- The `category_weights` tables of the six entries of SHOPPER_PROFILES in
src/simulate_shopping.py. -/
def SHOPPER_PROFILES_WEIGHTS : List (String × List (String × Nat)) := [
  ("Stay-at-Home Parent", [("Dairy", 8), ("Bakery", 7), ("Produce", 7), ("Beverages", 5),
    ("Meat", 6), ("Pantry", 8), ("Snacks", 5), ("Desserts", 4)]),
  ("Retired", [("Dairy", 7), ("Bakery", 8), ("Produce", 9), ("Beverages", 6),
    ("Meat", 5), ("Pantry", 7), ("Snacks", 3), ("Desserts", 4)]),
  ("Student", [("Dairy", 4), ("Bakery", 5), ("Produce", 2), ("Beverages", 8),
    ("Meat", 3), ("Pantry", 7), ("Snacks", 9), ("Desserts", 7)]),
  ("Office Worker", [("Dairy", 6), ("Bakery", 4), ("Produce", 7), ("Beverages", 5),
    ("Meat", 8), ("Pantry", 7), ("Snacks", 4), ("Desserts", 5)]),
  ("Trade Worker", [("Dairy", 5), ("Bakery", 6), ("Produce", 4), ("Beverages", 7),
    ("Meat", 8), ("Pantry", 6), ("Snacks", 6), ("Desserts", 3)]),
  ("Night Shift", [("Dairy", 5), ("Bakery", 4), ("Produce", 3), ("Beverages", 8),
    ("Meat", 4), ("Pantry", 5), ("Snacks", 8), ("Desserts", 6)])]

/-- Placeholder product used as the (never reached) default of bounded
index accesses. -/
def dummyProduct : Product := ⟨"", "", 0, 0, ""⟩

/-- The index drawn by a weighted choice with roll `r`: the first index
whose cumulative weight exceeds `r % total`. -/
def cumPick : List Nat → Nat → Nat
  | [], _ => 0
  | w :: ws, r => if r < w then 0 else 1 + cumPick ws (r - w)

/-- Embeds `random.choices(range(len(ws)), weights=ws)`: raises ValueError
when the weights sum to zero, otherwise returns an index chosen with
probability proportional to its weight (the uniform roll is the oracle
argument `r`). -/
def weightedChoice (ws : List Nat) (r : Nat) : Except String Nat :=
  if ws.sum = 0 then Except.error "Total of weights must be greater than zero"
  else Except.ok (cumPick ws (r % ws.sum))

/-- The sampling loop of `pick_products_by_preference`: `steps` draws
without replacement from the parallel candidate/weight lists (`available`
and `available_weights`, here zipped), appending each chosen product to
the cart, stopping early when no candidate remains. -/
def pickLoop (oracle : Nat → Nat) : Nat → Nat → List (Product × Nat) → List Product →
    Except String (List Product)
  | 0, _, _, cart => Except.ok cart
  | steps + 1, t, avail, cart =>
    if avail.isEmpty then Except.ok cart
    else
      match weightedChoice (avail.map Prod.snd) (oracle t) with
      | Except.error e => Except.error e
      | Except.ok ci =>
        pickLoop oracle steps (t + 1) (avail.eraseIdx ci)
          (cart ++ [(avail.getD ci (dummyProduct, 0)).1])

/-- Embeds `pick_products_by_preference(products, profile, max_items)` of
src/simulate_shopping.py: empty catalog returns an empty cart; otherwise
`num_items = random.randint(1, min(max_items, len(products)))` (ValueError
when the range is empty, i.e. `min(max_items, len(products)) < 1`), then
`num_items` weighted draws without replacement.  `randNum` is the value
drawn by randint (reduced into the range), `oracle t` the roll of the
`t`-th `random.choices` call. -/
def pickProductsByPreference (products : List Product) (cw : List (String × Nat))
    (maxItems : Nat) (randNum : Nat) (oracle : Nat → Nat) :
    Except String (List Product) :=
  if products.isEmpty then Except.ok []
  else if min maxItems products.length < 1 then Except.error "empty range for randrange"
  else
    pickLoop oracle (1 + randNum % (min maxItems products.length)) 0
      (products.zip (products.map (fun p => profileWeight cw p.category))) []

theorem profileWeight_pos (cw : List (String × Nat)) (hpos : ∀ pr ∈ cw, 0 < pr.2)
    (cat : String) : 0 < profileWeight cw cat := by
  unfold profileWeight
  induction cw with
  | nil => simp [List.lookup]
  | cons pr rest ih =>
    obtain ⟨k, v⟩ := pr
    simp only [List.lookup]
    cases hbeq : cat == k
    · exact ih (fun q hq => hpos q (List.mem_cons_of_mem _ hq))
    · simpa using hpos ⟨k, v⟩ (List.mem_cons_self _ _)

theorem cumPick_lt (ws : List Nat) (r : Nat) (h : r < ws.sum) :
    cumPick ws r < ws.length := by
  induction ws generalizing r with
  | nil => simp at h
  | cons w rest ih =>
    unfold cumPick
    by_cases hr : r < w
    · rw [if_pos hr]
      simp
    · rw [if_neg hr]
      have : r - w < rest.sum := by
        simp only [List.sum_cons] at h
        omega
      have := ih (r - w) this
      simp only [List.length_cons]
      omega

theorem perm_getD_cons_eraseIdx {β : Type} (d : β) :
    ∀ (l : List β) (i : Nat), i < l.length →
      List.Perm l (l.getD i d :: l.eraseIdx i) := by
  intro l
  induction l with
  | nil => intro i h; simp at h
  | cons x xs ih =>
    intro i h
    cases i with
    | zero => simp
    | succ i =>
      have hi : i < xs.length := by simpa using h
      have := ih i hi
      have h1 : List.Perm (x :: xs) (x :: xs.getD i d :: xs.eraseIdx i) := this.cons x
      refine h1.trans ?_
      have := List.Perm.swap (xs.getD i d) x (xs.eraseIdx i)
      simpa [List.eraseIdx] using this

theorem pickLoop_spec (oracle : Nat → Nat) (products : List Product) :
    ∀ (steps t : Nat) (avail : List (Product × Nat)) (cart : List Product),
      (∀ pr ∈ avail, 0 < pr.2) →
      List.Subperm (cart ++ avail.map Prod.fst) products →
      ∃ res, pickLoop oracle steps t avail cart = Except.ok res ∧
        List.Subperm res products ∧ res.length ≤ cart.length + steps := by
  intro steps
  induction steps with
  | zero =>
    intro t avail cart hpos hsub
    refine ⟨cart, rfl, ?_, by omega⟩
    exact ((List.sublist_append_left cart (avail.map Prod.fst)).subperm).trans hsub
  | succ steps ih =>
    intro t avail cart hpos hsub
    by_cases hemp : avail.isEmpty = true
    · refine ⟨cart, ?_, ?_, by omega⟩
      · unfold pickLoop
        rw [if_pos hemp]
      · exact ((List.sublist_append_left cart (avail.map Prod.fst)).subperm).trans hsub
    · have havail : avail ≠ [] := by
        intro h
        rw [h] at hemp
        exact hemp rfl
      have hsum : (avail.map Prod.snd).sum ≠ 0 := by
        intro h0
        cases avail with
        | nil => exact havail rfl
        | cons pr rest =>
          simp only [List.map_cons, List.sum_cons] at h0
          have := hpos pr (List.mem_cons_self _ _)
          omega
      have hchoice : weightedChoice (avail.map Prod.snd) (oracle t)
          = Except.ok (cumPick (avail.map Prod.snd)
              (oracle t % (avail.map Prod.snd).sum)) := by
        unfold weightedChoice
        rw [if_neg hsum]
      have hci : cumPick (avail.map Prod.snd) (oracle t % (avail.map Prod.snd).sum)
          < avail.length := by
        have hmod : oracle t % (avail.map Prod.snd).sum < (avail.map Prod.snd).sum :=
          Nat.mod_lt _ (by omega)
        have := cumPick_lt (avail.map Prod.snd) _ hmod
        simpa using this
      have hstep : pickLoop oracle (steps + 1) t avail cart
          = if avail.isEmpty then Except.ok cart
            else match weightedChoice (avail.map Prod.snd) (oracle t) with
              | Except.error e => Except.error e
              | Except.ok ci =>
                pickLoop oracle steps (t + 1) (avail.eraseIdx ci)
                  (cart ++ [(avail.getD ci (dummyProduct, 0)).1]) := rfl
      have hred : pickLoop oracle (steps + 1) t avail cart
          = pickLoop oracle steps (t + 1)
              (avail.eraseIdx (cumPick (avail.map Prod.snd)
                (oracle t % (avail.map Prod.snd).sum)))
              (cart ++ [(avail.getD (cumPick (avail.map Prod.snd)
                (oracle t % (avail.map Prod.snd).sum)) (dummyProduct, 0)).1]) := by
        rw [hstep, if_neg (by simp [hemp]), hchoice]
      rw [hred]
      have hposE : ∀ pr ∈ avail.eraseIdx (cumPick (avail.map Prod.snd)
          (oracle t % (avail.map Prod.snd).sum)), 0 < pr.2 := by
        intro pr hpr
        exact hpos pr ((List.eraseIdx_sublist ..).mem hpr)
      have hsubE : List.Subperm
          ((cart ++ [(avail.getD (cumPick (avail.map Prod.snd)
              (oracle t % (avail.map Prod.snd).sum)) (dummyProduct, 0)).1])
            ++ (avail.eraseIdx (cumPick (avail.map Prod.snd)
              (oracle t % (avail.map Prod.snd).sum))).map Prod.fst)
          products := by
        set ci := cumPick (avail.map Prod.snd) (oracle t % (avail.map Prod.snd).sum) with hcidef
        have hperm0 : List.Perm avail (avail.getD ci (dummyProduct, 0) :: avail.eraseIdx ci) :=
          perm_getD_cons_eraseIdx (dummyProduct, 0) avail ci hci
        have hperm1 : List.Perm (avail.map Prod.fst)
            ((avail.getD ci (dummyProduct, 0)).1 :: (avail.eraseIdx ci).map Prod.fst) := by
          have := hperm0.map Prod.fst
          simpa using this
        have hperm2 : List.Perm
            ((cart ++ [(avail.getD ci (dummyProduct, 0)).1])
              ++ (avail.eraseIdx ci).map Prod.fst)
            (cart ++ avail.map Prod.fst) := by
          have h1 : (cart ++ [(avail.getD ci (dummyProduct, 0)).1])
              ++ (avail.eraseIdx ci).map Prod.fst
              = cart ++ ((avail.getD ci (dummyProduct, 0)).1
                  :: (avail.eraseIdx ci).map Prod.fst) := by
            simp
          rw [h1]
          exact List.Perm.append_left cart hperm1.symm
        exact (hperm2.subperm).trans hsub
      obtain ⟨res, hrun, hsubR, hlenR⟩ := ih (t + 1) _ _ hposE hsubE
      refine ⟨res, hrun, hsubR, ?_⟩
      simp only [List.length_append, List.length_cons, List.length_nil] at hlenR
      omega

/-- Counterexample to C8 as stated: with a non-empty product list and
`maxItems = 0`, `random.randint(1, min(0, 1))` is called on an empty range
and raises ValueError, so buildCart does not return a cart. -/
theorem claim_C8_counterexample :
    pickProductsByPreference [⟨"p1", "Chips", 4, 9, "Snacks"⟩]
      [("Dairy", 4), ("Bakery", 5), ("Produce", 2), ("Beverages", 8),
        ("Meat", 3), ("Pantry", 7), ("Snacks", 9), ("Desserts", 7)]
      0 0 (fun _ => 0)
      = Except.error "empty range for randrange" := rfl

/-- Claim C8 (amended): for every profile of the program, every product
list and every `maxItems ≥ 1` — the original claim fails only at
`maxItems = 0` (or negative) with a non-empty catalog, where
`random.randint(1, 0)` raises ValueError — buildCart returns without error
a duplicate-free selection from the input products (a sub-multiset: each
product position is used at most once) of length at most
`min(maxItems, number of products)`; and for the empty product list it
returns the empty list without error for any `maxItems`. -/
theorem claim_C8_buildCart_safety (name : String) (cw : List (String × Nat))
    (hprof : (name, cw) ∈ SHOPPER_PROFILES_WEIGHTS)
    (products : List Product) (maxItems randNum : Nat) (oracle : Nat → Nat)
    (hmax : 1 ≤ maxItems ∨ products = []) :
    (∃ cart : List Product,
      pickProductsByPreference products cw maxItems randNum oracle = Except.ok cart ∧
      List.Subperm cart products ∧
      cart.length ≤ min maxItems products.length) ∧
    (products = [] →
      pickProductsByPreference products cw maxItems randNum oracle = Except.ok []) := by
  have hwpos : ∀ pr ∈ cw, 0 < pr.2 := by
    have h6 : cw = [("Dairy", 8), ("Bakery", 7), ("Produce", 7), ("Beverages", 5),
        ("Meat", 6), ("Pantry", 8), ("Snacks", 5), ("Desserts", 4)] ∨
      cw = [("Dairy", 7), ("Bakery", 8), ("Produce", 9), ("Beverages", 6),
        ("Meat", 5), ("Pantry", 7), ("Snacks", 3), ("Desserts", 4)] ∨
      cw = [("Dairy", 4), ("Bakery", 5), ("Produce", 2), ("Beverages", 8),
        ("Meat", 3), ("Pantry", 7), ("Snacks", 9), ("Desserts", 7)] ∨
      cw = [("Dairy", 6), ("Bakery", 4), ("Produce", 7), ("Beverages", 5),
        ("Meat", 8), ("Pantry", 7), ("Snacks", 4), ("Desserts", 5)] ∨
      cw = [("Dairy", 5), ("Bakery", 6), ("Produce", 4), ("Beverages", 7),
        ("Meat", 8), ("Pantry", 6), ("Snacks", 6), ("Desserts", 3)] ∨
      cw = [("Dairy", 5), ("Bakery", 4), ("Produce", 3), ("Beverages", 8),
        ("Meat", 4), ("Pantry", 5), ("Snacks", 8), ("Desserts", 6)] := by
      unfold SHOPPER_PROFILES_WEIGHTS at hprof
      simp only [List.mem_cons, List.not_mem_nil, or_false, Prod.mk.injEq] at hprof
      rcases hprof with ⟨_, h⟩ | ⟨_, h⟩ | ⟨_, h⟩ | ⟨_, h⟩ | ⟨_, h⟩ | ⟨_, h⟩ <;> simp [h]
    rcases h6 with h | h | h | h | h | h <;> subst h <;> decide
  refine ⟨?_, fun hcon => by subst hcon; rfl⟩
  cases hps : products with
  | nil =>
    exact ⟨[], rfl, List.nil_subperm, by simp⟩
  | cons p0 rest =>
    have hmax1 : 1 ≤ maxItems := by
      rcases hmax with h | h
      · exact h
      · rw [hps] at h
        exact absurd h (by simp)
    rw [← hps]
    have hne : products.isEmpty = false := by
      rw [hps]
      rfl
    have hlen1 : 1 ≤ products.length := by
      rw [hps]
      simp
    have hmin1 : ¬ min maxItems products.length < 1 := by omega
    have hred : pickProductsByPreference products cw maxItems randNum oracle
        = pickLoop oracle (1 + randNum % (min maxItems products.length)) 0
            (products.zip (products.map (fun p => profileWeight cw p.category))) [] := by
      unfold pickProductsByPreference
      rw [if_neg (by simp [hne]), if_neg hmin1]
    have hzipfst : (products.zip (products.map (fun p => profileWeight cw p.category))).map
        Prod.fst = products := by
      apply List.map_fst_zip
      simp
    have hpos : ∀ pr ∈ products.zip (products.map (fun p => profileWeight cw p.category)),
        0 < pr.2 := by
      intro pr hpr
      have := (List.of_mem_zip hpr).2
      rcases List.mem_map.mp this with ⟨q, _, hq⟩
      rw [← hq]
      exact profileWeight_pos cw hwpos q.category
    have hsub : List.Subperm
        ([] ++ (products.zip (products.map (fun p => profileWeight cw p.category))).map
          Prod.fst) products := by
      rw [List.nil_append, hzipfst]
    obtain ⟨res, hrun, hsubR, hlenR⟩ :=
      pickLoop_spec oracle products (1 + randNum % (min maxItems products.length)) 0
        (products.zip (products.map (fun p => profileWeight cw p.category))) [] hpos hsub
    refine ⟨res, by rw [hred]; exact hrun, hsubR, ?_⟩
    have hmodlt : randNum % (min maxItems products.length) < min maxItems products.length :=
      Nat.mod_lt _ (by omega)
    simp only [List.length_nil] at hlenR
    omega

/-- Witness for C8 at a concrete input: the Student profile on a
one-product catalog with room for 3 items returns one item without
error. -/
theorem claim_C8_witness :
    (∃ cart : List Product,
      pickProductsByPreference [⟨"p1", "Chips", 4, 9, "Snacks"⟩]
        [("Dairy", 4), ("Bakery", 5), ("Produce", 2), ("Beverages", 8),
          ("Meat", 3), ("Pantry", 7), ("Snacks", 9), ("Desserts", 7)]
        3 0 (fun _ => 0) = Except.ok cart ∧
      List.Subperm cart [⟨"p1", "Chips", 4, 9, "Snacks"⟩] ∧
      cart.length ≤ min 3 1) ∧
    pickProductsByPreference ([] : List Product)
      [("Dairy", 4), ("Bakery", 5), ("Produce", 2), ("Beverages", 8),
        ("Meat", 3), ("Pantry", 7), ("Snacks", 9), ("Desserts", 7)]
      3 0 (fun _ => 0) = Except.ok [] := by
  constructor
  · exact (claim_C8_buildCart_safety "Student"
      [("Dairy", 4), ("Bakery", 5), ("Produce", 2), ("Beverages", 8),
        ("Meat", 3), ("Pantry", 7), ("Snacks", 9), ("Desserts", 7)]
      (by decide) [⟨"p1", "Chips", 4, 9, "Snacks"⟩] 3 0 (fun _ => 0)
      (Or.inl (by decide))).1
  · exact (claim_C8_buildCart_safety "Student"
      [("Dairy", 4), ("Bakery", 5), ("Produce", 2), ("Beverages", 8),
        ("Meat", 3), ("Pantry", 7), ("Snacks", 9), ("Desserts", 7)]
      (by decide) [] 3 0 (fun _ => 0) (Or.inr rfl)).2 rfl

/-! ### Price-sensitive cart-building weights (claim C6) -/

/-- Modelled from the spec: the shopper-profile fields used by the
price-sensitive buildCart of §4.3 (category weight table with
`price_threshold` and `skip_chance`, as configured in
CONFIG["shopper_profiles"] of src/config.py).  The 4-argument
`pick_products_by_preference` that src/gui.py imports (the variant with
this price logic) is not present under src/; src/simulate_shopping.py
holds an older 3-argument variant without it. -/
structure ShopperProfile where
  catWeights : List (String × Nat)
  priceThreshold : ℚ
  skipChance : ℚ

/-- Modelled from the spec: the per-product selection weight of buildCart —
"compute a weight = profile's category weight for that product's category
(default weight if category unseen); if price exceeds the profile's price
threshold, either zero the weight (probability = profile's skip chance) or
halve it (floor at 1) otherwise."  The Bernoulli draw that comes up true
with probability `skip_chance` is passed as the `skip` argument. -/
def buildCartWeight (profile : ShopperProfile) (skip : Bool) (p : Product) : Nat :=
  let w := profileWeight profile.catWeights p.category
  if profile.priceThreshold < p.price then
    (if skip then 0 else max 1 (w / 2))
  else w

/-- Modelled from the spec: the weight vector over all candidate products,
with the fallback — "if every product ends up weight-zero, fall back to
uniform weighting over all products (guarantees progress)". -/
def buildCartWeights (profile : ShopperProfile) (skips : Nat → Bool)
    (products : List Product) : List Nat :=
  let ws := (List.range products.length).map
    (fun i => buildCartWeight profile (skips i) (products.getD i dummyProduct))
  if ws.all (fun w => w == 0) then products.map (fun _ => 1) else ws

/-- Claim C6 (settled against a model of the missing 4-argument
`pick_products_by_preference`, built from the spec's words): every
candidate product's selection weight is the profile's category weight for
its category, defaulting to 3 when the category is unseen; when the price
exceeds the profile's threshold the weight becomes 0 on a skip draw
(probability = skip chance) and is otherwise halved with a floor of 1; and
when every product's weight is zero, selection falls back to a uniform
weight of 1 over all products. -/
theorem claim_C6_buildCart_weights (profile : ShopperProfile) (skips : Nat → Bool)
    (products : List Product) :
    (∀ p : Product, p.price ≤ profile.priceThreshold → ∀ skip : Bool,
      buildCartWeight profile skip p = profileWeight profile.catWeights p.category) ∧
    (∀ p : Product, profile.priceThreshold < p.price →
      buildCartWeight profile true p = 0 ∧
      buildCartWeight profile false p
        = max 1 (profileWeight profile.catWeights p.category / 2)) ∧
    (∀ cat : String, profile.catWeights.lookup cat = none →
      profileWeight profile.catWeights cat = 3) ∧
    ((∀ i : Nat, ∀ p : Product, products[i]? = some p →
        buildCartWeight profile (skips i) p = 0) →
      buildCartWeights profile skips products = products.map (fun _ => 1)) ∧
    ((∃ i : Nat, ∃ p : Product, products[i]? = some p ∧
        buildCartWeight profile (skips i) p ≠ 0) →
      buildCartWeights profile skips products
        = (List.range products.length).map
            (fun i => buildCartWeight profile (skips i) (products.getD i dummyProduct))) := by
  refine ⟨?_, ?_, ?_, ?_, ?_⟩
  · intro p hp skip
    unfold buildCartWeight
    rw [if_neg (by exact not_lt.mpr hp)]
  · intro p hp
    constructor
    · unfold buildCartWeight
      rw [if_pos hp, if_pos rfl]
    · unfold buildCartWeight
      rw [if_pos hp, if_neg (by simp)]
  · intro cat hcat
    unfold profileWeight
    rw [hcat]
    rfl
  · intro hzero
    unfold buildCartWeights
    rw [if_pos ?_]
    rw [List.all_eq_true]
    intro w hw
    rcases List.mem_map.mp hw with ⟨i, hi, hwi⟩
    rw [List.mem_range] at hi
    have hgetD : products.getD i dummyProduct = products[i] :=
      getD_eq_getElem_of_lt products i dummyProduct hi
    have hsome : products[i]? = some products[i] := List.getElem?_eq_getElem hi
    have := hzero i products[i] hsome
    rw [← hwi, hgetD, this]
    rfl
  · intro hnz
    unfold buildCartWeights
    rw [if_neg ?_]
    rcases hnz with ⟨i, p, hip, hwnz⟩
    intro hall
    rw [List.all_eq_true] at hall
    have hi : i < products.length := by
      by_contra hge
      rw [List.getElem?_eq_none (Nat.le_of_not_lt hge)] at hip
      exact absurd hip (by simp)
    have hgetD : products.getD i dummyProduct = p := by
      rw [getD_eq_getElem_of_lt products i dummyProduct hi]
      have := List.getElem?_eq_getElem hi
      rw [this] at hip
      injection hip
    have hmem : buildCartWeight profile (skips i) (products.getD i dummyProduct)
        ∈ (List.range products.length).map
          (fun i => buildCartWeight profile (skips i) (products.getD i dummyProduct)) :=
      List.mem_map_of_mem _ (List.mem_range.mpr hi)
    have := hall _ hmem
    rw [hgetD] at this
    exact hwnz (by simpa using this)

/-- Witness for C6 at a concrete input: for the Student profile (threshold
6.00) a 4.00-priced Snacks product keeps weight 9; a pricier product is
zeroed on a skip draw and halved to 4 otherwise; an unseen category gets
the default weight 3. -/
theorem claim_C6_witness :
    buildCartWeight ⟨[("Snacks", 9)], 6, 4 / 5⟩ false ⟨"p1", "Chips", 4, 9, "Snacks"⟩ = 9 ∧
    buildCartWeight ⟨[("Snacks", 9)], 6, 4 / 5⟩ true ⟨"p2", "Caviar", 9, 2, "Snacks"⟩ = 0 ∧
    buildCartWeight ⟨[("Snacks", 9)], 6, 4 / 5⟩ false ⟨"p2", "Caviar", 9, 2, "Snacks"⟩ = 4 ∧
    profileWeight [("Snacks", 9)] "Dairy" = 3 := by
  have h := claim_C6_buildCart_weights ⟨[("Snacks", 9)], 6, 4 / 5⟩ (fun _ => false) []
  refine ⟨?_, ?_, ?_, ?_⟩
  · exact (h.1 ⟨"p1", "Chips", 4, 9, "Snacks"⟩ (by norm_num) false).trans (by decide)
  · exact (h.2.1 ⟨"p2", "Caviar", 9, 2, "Snacks"⟩ (by norm_num)).1
  · exact ((h.2.1 ⟨"p2", "Caviar", 9, 2, "Snacks"⟩ (by norm_num)).2).trans (by decide)
  · exact h.2.2.1 "Dairy" (by decide)

end Minimart
